import Mathlib

/-!
Verification development for the argument/location parser of backup-vm
(src/backup_vm/parse.py).

The Python source parses "repository location" strings with four regular
expressions (ssh_re, file_re, scp_re, env_re), normalizes paths with
os.path.normpath plus a special "/./" relative marker, and drives a
token-by-token command-line state machine (ArgumentParser and its
specializations).

The embedding below translates each regex into an explicit deterministic
matcher over `List Char` whose backtracking structure follows the Python
regex engine (leftmost alternative first, greedy quantifiers, one
alternative retried only after the whole continuation of the previous one
fails).  Derivations for the closed forms are documented next to each
definition.  Python's `$` anchor also matches just before one trailing
newline; that case is modelled where it is reachable (env_re alternative 1)
and noted where it is not.
-/

namespace BackupVM

abbrev Chars := List Char

/-! ## os.path modelling (posixpath.normpath, join, isabs) -/

/-- Split a character list at every slash, mirroring Python str.split("/"):
adjacent slashes yield empty components, a leading slash yields a leading
empty component. -/
def splitSlash : Chars → List Chars
  | [] => [[]]
  | c :: r =>
    if c = '/' then [] :: splitSlash r
    else
      match splitSlash r with
      | [] => [[c]]
      | h :: t => (c :: h) :: t

/-- One step of posixpath.normpath's component loop: skip empty and "."
components; append a component unless it is ".." that can be popped; pop
otherwise. `isl` is the number of initial slashes (0, 1 or 2). -/
def normStep (isl : Nat) (acc : List Chars) (comp : Chars) : List Chars :=
  if comp = [] ∨ comp = ['.'] then acc
  else if comp ≠ ['.', '.'] ∨ (isl = 0 ∧ acc = []) ∨ (acc ≠ [] ∧ acc.getLast? = some ['.', '.']) then
    acc ++ [comp]
  else if acc ≠ [] then acc.dropLast
  else acc

/-- Number of initial slashes kept by posixpath.normpath: 2 exactly when the
path starts with two slashes but not three, 1 for any other leading slash. -/
def islOf (p : Chars) : Nat :=
  if p.take 1 = ['/'] then
    if p.take 2 = ['/', '/'] ∧ p.take 3 ≠ ['/', '/', '/'] then 2 else 1
  else 0

/-- posixpath.normpath over a character list. -/
def normpath (p : Chars) : Chars :=
  if p = [] then ['.']
  else
    let isl := islOf p
    let comps := (splitSlash p).foldl (normStep isl) []
    let res := List.replicate isl '/' ++ List.intercalate ['/'] comps
    if res = [] then ['.'] else res

/-- normpath_special from Location._parse: normpath, except that a raw path
beginning with the relative marker "/./" gets "/." re-prepended after
normalization. -/
def normpathSpecial (p : Chars) : Chars :=
  let relative := p.take 3 = ['/', '.', '/']
  let np := normpath p
  if relative then '/' :: '.' :: np else np

/-- os.path.isabs on POSIX: the path starts with a slash. -/
def isabs (p : Chars) : Bool := p.take 1 = ['/']

/-- posixpath.join of two components (the only arity the source uses). -/
def pyJoin (a b : Chars) : Chars :=
  if b.take 1 = ['/'] then b
  else if a = [] ∨ a.getLast? = some '/' then a ++ b
  else a ++ '/' :: b

/-! ## Character classes of the regexes -/

/-- Class of optional_user_re: `[^@:/]`. -/
def userChar (c : Char) : Bool := !(c == '@' || c == ':' || c == '/')

/-- Class of the bare host alternative: `[^:/]`. -/
def hostChar (c : Char) : Bool := !(c == ':' || c == '/')

/-- Class of the bracketed host alternative: `[0-9a-fA-F:.]`. -/
def hostBChar (c : Char) : Bool :=
  (('0' ≤ c ∧ c ≤ '9') || ('a' ≤ c ∧ c ≤ 'f') || ('A' ≤ c ∧ c ≤ 'F') || c == ':' || c == '.')

/-! ## Shared sub-matchers

`optional_user_re` is `(?:(?P<user>[^@:/]+)@)?`: the greedy run of user
characters must be non-empty and immediately followed by "@"; no shorter
run can be followed by "@" (the class excludes it), so the branch is
deterministic. -/

def takeUser (s : Chars) : Option (Chars × Chars) :=
  if (s.dropWhile userChar).take 1 = ['@'] ∧ s.takeWhile userChar ≠ [] then
    some (s.takeWhile userChar, (s.dropWhile userChar).drop 1)
  else none

/-- Bare-host alternative `[^:/]+`: the greedy run; every regex context
requires the next character to be ":" or "/", both excluded from the class,
so only the maximal run can continue and the branch is deterministic. -/
def hostA (s : Chars) : Option (Chars × Chars) :=
  if s.takeWhile hostChar = [] then none
  else some (s.takeWhile hostChar, s.dropWhile hostChar)

/-- Bracketed-host alternative `\[[0-9a-fA-F:.]+\]`: "[", a non-empty greedy
class run, then "]"; the class excludes "]", so only the maximal run can be
followed by "]" and the branch is deterministic. -/
def hostB (s : Chars) : Option (Chars × Chars) :=
  if s.take 1 = ['['] then
    if (s.drop 1).takeWhile hostBChar ≠ [] ∧ ((s.drop 1).dropWhile hostBChar).take 1 = [']'] then
      some ('[' :: ((s.drop 1).takeWhile hostBChar ++ [']']), ((s.drop 1).dropWhile hostBChar).drop 1)
    else none
  else none

/-- Maximal run of the path element `([^:]|(:(?!:)))`: a character is
admitted unless it is a ":" immediately followed by another ":", so the run
stops exactly at the first "::" occurrence (or takes the whole input). -/
def takeUntilDC : Chars → Chars × Chars
  | [] => ([], [])
  | c :: r =>
    if c = ':' ∧ r.take 1 = [':'] then ([], c :: r)
    else
      let pr := takeUntilDC r
      (c :: pr.1, pr.2)

/-- The tail `(?:::(?P<archive>[^/]+))?$` applied after a maximal path run.
The remainder is empty (archive absent) or starts with "::"; in the latter
case the greedy `[^/]+` followed by `$` succeeds exactly when the whole
remainder after "::" is non-empty and slash-free (a partial run leaves a
non-dollar suffix, and backing the path off never exposes another "::").
A remainder of just a newline cannot occur here because the path class
accepts the newline itself. -/
def archOpt (r : Chars) : Option (Option Chars) :=
  if r = [] then some none
  else if r.take 2 = [':', ':'] then
    if r.drop 2 ≠ [] ∧ '/' ∉ r.drop 2 then some (some (r.drop 2)) else none
  else none

/-- Greedy `([^:]|(:(?!:)))+` followed by the optional archive suffix and
the end anchor. -/
def pathArch (r : Chars) : Option (Chars × Option Chars) :=
  if (takeUntilDC r).1 = [] then none
  else (archOpt (takeUntilDC r).2).map fun a => ((takeUntilDC r).1, a)

/-- abs_path_re `(?P<path>(/([^:]|(:(?!:)))+))` plus archive suffix: the
path must start with "/" and have at least one class character after it. -/
def absPathArch (r : Chars) : Option (Chars × Option Chars) :=
  if r.take 1 = ['/'] then
    (pathArch r).bind fun pa => if 2 ≤ pa.1.length then some pa else none
  else none

/-- Value of the port group: `m.group("port") and int(m.group("port")) or
None` maps a zero port (e.g. "0", "00") back to None because int 0 is
falsy in Python. -/
def digitsVal (ds : Chars) : Nat := ds.foldl (fun n c => 10 * n + (c.toNat - '0'.toNat)) 0

def portOfDigits (ds : Chars) : Option Nat :=
  if digitsVal ds = 0 then none else some (digitsVal ds)

/-- `(?::(?P<port>\d+))?` followed by the absolute path: when the input
continues with ":", the digit run must be non-empty and the path must
follow it (digits cannot be given back — any shorter digit run is followed
by a digit, not "/"; and with the ":" present the port-absent branch would
need the path to start at ":", which abs_path_re rejects). -/
def portPath (r : Chars) : Option (Option Nat × Chars × Option Chars) :=
  if r.take 1 = [':'] then
    if (r.drop 1).takeWhile Char.isDigit = [] then none
    else
      (absPathArch ((r.drop 1).dropWhile Char.isDigit)).map
        fun pa => (portOfDigits ((r.drop 1).takeWhile Char.isDigit), pa.1, pa.2)
  else (absPathArch r).map fun pa => (none, pa.1, pa.2)

/-! ## ssh_re -/

structure SshG where
  user : Option Chars
  host : Chars
  port : Option Nat
  path : Chars
  archive : Option Chars
deriving DecidableEq, Repr

/-- Host alternation plus port and path, in the regex engine's order:
bare-host alternative first (with its full continuation), bracketed host
second. -/
def hostPortPath (u : Option Chars) (r : Chars) : Option SshG :=
  ((hostA r).bind fun hr => (portPath hr.2).map fun ppa => SshG.mk u hr.1 ppa.1 ppa.2.1 ppa.2.2)
  <|> ((hostB r).bind fun hr => (portPath hr.2).map fun ppa => SshG.mk u hr.1 ppa.1 ppa.2.1 ppa.2.2)

/-- ssh_re: `ssh://` then optional user, host, optional port, absolute path
and optional archive.  The optional user group is tried with the user
present first; if every host alternative (with its continuation) fails, the
engine retries without the user. -/
def sshMatch (s : Chars) : Option SshG :=
  if s.take 6 = ['s', 's', 'h', ':', '/', '/'] then
    ((takeUser (s.drop 6)).bind fun ur => hostPortPath (some ur.1) ur.2)
      <|> hostPortPath none (s.drop 6)
  else none

/-! ## file_re -/

/-- Split at the first slash.  file_path_re starts with `([^/]*)/`: the
starred class cannot contain a slash, so the group is exactly the text
before the first slash and the split is deterministic. -/
def splitFirstSlash : Chars → Option (Chars × Chars)
  | [] => none
  | c :: r =>
    if c = '/' then some ([], r)
    else (splitFirstSlash r).map fun sb => (c :: sb.1, sb.2)

/-- file_re: `file://` then `([^/]*)/([^:]|(:(?!:)))+` and the archive
suffix.  Note the first segment may contain "::" (only the part after the
first slash is scanned by the path element class). -/
def fileMatch (s : Chars) : Option (Chars × Option Chars) :=
  if s.take 7 = ['f', 'i', 'l', 'e', ':', '/', '/'] then
    (splitFirstSlash (s.drop 7)).bind fun sr =>
    (pathArch sr.2).map fun pa => (sr.1 ++ '/' :: pa.1, pa.2)
  else none

/-! ## scp_re -/

structure ScpG where
  user : Option Chars
  host : Option Chars
  path : Chars
  archive : Option Chars
deriving DecidableEq, Repr

/-- Negative lookahead of scp_path_re: `(?!(:|//|ssh://))`. -/
def scpLookOk (r : Chars) : Bool :=
  !(r.take 1 == [':'] || r.take 2 == ['/', '/'] || r.take 6 == ['s', 's', 'h', ':', '/', '/'])

def scpPathArch (r : Chars) : Option (Chars × Option Chars) :=
  if scpLookOk r then pathArch r else none

/-- The body of scp_re's optional `[user@]host:` group for a fixed user
choice: each host alternative must be followed by a literal ":" and then
the path (with its archive suffix and anchor) must succeed, otherwise the
engine moves to the next alternative. -/
def scpWithHost (u : Option Chars) (r : Chars) : Option ScpG :=
  ((hostA r).bind fun hr =>
    if hr.2.take 1 = [':'] then
      (scpPathArch (hr.2.drop 1)).map fun pa => ScpG.mk u (some hr.1) pa.1 pa.2
    else none)
  <|> ((hostB r).bind fun hr =>
    if hr.2.take 1 = [':'] then
      (scpPathArch (hr.2.drop 1)).map fun pa => ScpG.mk u (some hr.1) pa.1 pa.2
    else none)

/-- scp_re: optional `[user@]host:` (user-present tried before user-absent,
whole group absent tried last), then scp_path_re and the archive suffix. -/
def scpMatch (s : Chars) : Option ScpG :=
  ((takeUser s).bind fun ur => scpWithHost (some ur.1) ur.2)
  <|> scpWithHost none s
  <|> (scpPathArch s).map fun pa => ScpG.mk none none pa.1 pa.2

/-! ## env_re -/

/-- Python's `$` anchor: end of input, or just before one trailing
newline. -/
def dollarEnd (r : Chars) : Bool := r == [] || r == ['\n']

/-- env_re: `(?:::$)|(?:::(?P<archive>[^/]+))?$`, alternative 1 first.
The result is the captured archive group (None for alternative 1 and for
the empty optional group). -/
def envMatch (s : Chars) : Option (Option Chars) :=
  if s.take 2 = [':', ':'] then
    if dollarEnd (s.drop 2) then some none
    else if s.drop 2 ≠ [] ∧ '/' ∉ s.drop 2 then some (some (s.drop 2)) else none
  else if dollarEnd s then some none else none

/-! ## Location -/

/-- The semantic fields of a parsed Location (proto, user, _host, port,
path, archive).  The original text and extra_args are carried separately
where a claim needs them. -/
structure RawLoc where
  proto : String
  user : Option Chars
  host : Option Chars
  port : Option Nat
  path : Chars
  archive : Option Chars
deriving DecidableEq, Repr

def ofSsh (g : SshG) : RawLoc :=
  ⟨"ssh", g.user, some g.host, g.port, normpathSpecial g.path, g.archive⟩

/-- The file branch leaves user, _host and port at their class default
None. -/
def ofFile (pa : Chars × Option Chars) : RawLoc :=
  ⟨"file", none, none, none, normpathSpecial pa.1, pa.2⟩

/-- The scp branch chooses proto "ssh" when a host was captured, else
"file" (`self._host and "ssh" or "file"`; a captured host is a non-empty
string, hence truthy). -/
def ofScp (g : ScpG) : RawLoc :=
  ⟨if g.host.isSome then "ssh" else "file", g.user, g.host, none, normpathSpecial g.path, g.archive⟩

/-- Location._parse: try ssh_re, then file_re, then scp_re, stopping at the
first match. -/
def parseRaw (s : Chars) : Option RawLoc :=
  match sshMatch s with
  | some g => some (ofSsh g)
  | none =>
    match fileMatch s with
    | some pa => some (ofFile pa)
    | none => (scpMatch s).map ofScp

/-- Location.parse: _parse the text; on failure match env_re, read the
default repository from the environment (BORG_REPO, modelled as the `env`
argument), _parse it with no further fallback, and overwrite the archive
with the one captured by env_re. -/
def locParse (text : Chars) (env : Option Chars) : Option RawLoc :=
  match parseRaw text with
  | some l => some l
  | none =>
    match envMatch text with
    | none => none
    | some arc =>
      match env with
      | none => none
      | some repo =>
        match parseRaw repo with
        | none => none
        | some l => some { l with archive := arc }

/-- Location.__init__: parse or raise `ValueError("Location: parse failed:
%s" % orig)` — a single error value for every failure mode. -/
def locationInit (text : Chars) (env : Option Chars) : Except String RawLoc :=
  match locParse text env with
  | some l => Except.ok l
  | none => Except.error ("Location: parse failed: " ++ String.mk text)

/-- Location.try_location: the parsed location, or None when construction
raised. -/
def tryLocation (text : Chars) (env : Option Chars) : Option RawLoc :=
  locParse text env

/-- Location.canonicalize_path: only when proto is "file" and the path is
not absolute, replace the path by normpath(join(cwd, path)). -/
def canonicalizePath (cwd : Chars) (l : RawLoc) : RawLoc :=
  if l.proto = "file" ∧ ¬(isabs l.path = true) then
    { l with path := normpath (pyJoin cwd l.path) }
  else l

def natChars (n : Nat) : Chars := (Nat.repr n).data

/-- Location.__str__: file proto emits the bare path; ssh with a port emits
the URI form `ssh://[user@]host:port/` + path (with "./" prepended via
os.path.join for a relative path — note the format string always inserts a
"/" before the path); ssh without a port emits `[user@]host:path`; an
archive appends `::archive`. -/
def locStr (l : RawLoc) : Chars :=
  let repo :=
    if l.proto = "file" then l.path
    else
      let u := match l.user with | some u => u ++ ['@'] | none => []
      let h := l.host.getD []
      match l.port with
      | some pt =>
        let pth := if isabs l.path then l.path else pyJoin ['.'] l.path
        ['s', 's', 'h', ':', '/', '/'] ++ u ++ h ++ [':'] ++ natChars pt ++ ['/'] ++ pth
      | none => u ++ h ++ [':'] ++ l.path
  match l.archive with
  | some a => repo ++ [':', ':'] ++ a
  | none => repo

/-- The "user@" prefix emitted by __str__ when a user was captured. -/
def userAt : Option Chars → Chars
  | some u => u ++ ['@']
  | none => []

/-- The "::archive" suffix appended by __str__ when an archive is
present. -/
def archSuffix : Option Chars → Chars
  | some a => ':' :: ':' :: a
  | none => []

/-- A character list contains no two adjacent colons (the shape excluded
from the path element class `([^:]|(:(?!:)))`). -/
def noDC : Chars → Bool
  | [] => true
  | [_] => true
  | a :: b :: r => !(a == ':' && b == ':') && noDC (b :: r)

/-- A Location object as Python sees it: the semantic fields together with
the original text (`self.orig`).  extra_args is carried by the argument
machine's ArchiveEntry instead. -/
structure PyLocation where
  loc : RawLoc
  orig : Chars
deriving DecidableEq, Repr

/-- Location construction (the object Python builds, or None on the
ValueError). -/
def mkLocation (text : Chars) (env : Option Chars) : Option PyLocation :=
  (locParse text env).map fun l => ⟨l, text⟩

/-- The canonical string form of a Location object (str(self)). -/
def pyLocStr (pl : PyLocation) : Chars := locStr pl.loc

/-- Location.__hash__ is `hash(str(self))`: the Python hash function
(abstracted as `h`) applied to the canonical string form. -/
def locationHash (h : Chars → UInt64) (pl : PyLocation) : UInt64 := h (pyLocStr pl)

/-! ## Argument state machine (ArgumentParser and BVMArgumentParser)

Process-terminating calls (help/version `sys.exit()`, usage errors exiting
with code 2) are modelled as outcome constructors.  The working directory
used by `canonicalize_path()` and the BORG_REPO environment value used by
`Location.parse` are threaded as parameters `cwd` and `env`.  Python wraps
the offending token of an "unrecognized argument" message in single
quotes; the message is modelled without the quote characters. -/

/-- One accepted archive location together with the pass-through arguments
collected into its extra_args list. -/
structure ArchiveEntry where
  loc : RawLoc
  extraArgs : List Chars
deriving DecidableEq, Repr

/-- The mutable fields of ArgumentParser that the token loop touches. -/
structure ArgState where
  progress : Bool
  disks : List Chars
  excludeSourceDevs : List (Option Chars)
  excludeTargetDevs : List (Option Chars)
  archives : List ArchiveEntry
  parsingBorgArgs : Bool
deriving DecidableEq, Repr

/-- Insertion into a Python set, modelled as an ordered list without
duplicates. -/
def addSet {α : Type} [DecidableEq α] (xs : List α) (x : α) : List α :=
  if x ∈ xs then xs else xs ++ [x]

/-- Result of a single parse_arg call: help/version exit, a usage error
(printed and exited with code 2), or continuation with the recognized flag
returned by parse_arg and the updated state. -/
inductive Outcome (σ : Type)
  | exitHelp
  | exitVersion
  | usageError (msg : Chars)
  | cont (recognized : Bool) (st : σ)
deriving DecidableEq, Repr

/-- Result of a whole parse_args run.  `emptyArgs` is the initial
help-plus-exit(2) for an empty token list. -/
inductive RunResult (σ : Type)
  | exitHelp
  | exitVersion
  | usageError (msg : Chars)
  | emptyArgs
  | done (st : σ)
deriving DecidableEq, Repr

/-- Test of the location-accepting branch: `l is not None and l.path is not
None and (l.proto == "file" or l._host is not None)`, plus the archive
requirement when `withArchive` is set.  (After any successful parse the
path field is always set, so the `l.path is not None` conjunct is
vacuous.) -/
def locShaped (withArchive : Bool) (l : Option RawLoc) : Bool :=
  match l with
  | some ll => (ll.proto == "file" || ll.host.isSome) && (!withArchive || ll.archive.isSome)
  | none => false

/-- Appending an accepted location: parsing_borg_args is cleared, the
location is canonicalized in place and appended with a fresh extra_args
list. -/
def acceptArchive (cwd : Chars) (st : ArgState) (l : Option RawLoc) : ArgState :=
  match l with
  | some ll =>
    { st with parsingBorgArgs := false,
              archives := st.archives ++ [⟨canonicalizePath cwd ll, []⟩] }
  | none => st

/-- Appending a pass-through token to the most recently accepted location's
extra_args (`self.archives[-1].extra_args.append(arg)`; Python raises
IndexError on an empty list, which is unreachable because collecting mode
is only ever enabled with a non-empty archives list). -/
def appendExtra (xs : List ArchiveEntry) (arg : Chars) : List ArchiveEntry :=
  match xs.getLast? with
  | none => xs
  | some last => xs.dropLast ++ [{ last with extraArgs := last.extraArgs ++ [arg] }]

/-- ArgumentParser.parse_arg, with the branches in source order. -/
def baseParseArg (cwd : Chars) (env : Option Chars) (needsArchive : Bool)
    (arg : Chars) (lookahead : Option Chars) (st : ArgState) : Outcome ArgState :=
  if arg = "-h".data ∨ arg = "--help".data then .exitHelp
  else if (arg = "-v".data ∨ arg = "--version".data) ∧ ¬st.parsingBorgArgs then .exitVersion
  else if arg = "--exclude-source-dev".data ∧ ¬st.parsingBorgArgs then
    .cont true { st with excludeSourceDevs := addSet st.excludeSourceDevs lookahead }
  else if arg = "--exclude-target-dev".data ∧ ¬st.parsingBorgArgs then
    .cont true { st with excludeTargetDevs := addSet st.excludeTargetDevs lookahead }
  else if needsArchive ∧ locShaped true (tryLocation arg env) then
    .cont true (acceptArchive cwd st (tryLocation arg env))
  else if arg = "--borg-args".data then
    if st.archives.isEmpty then .usageError "--borg-args must come after an archive path".data
    else .cont true { st with parsingBorgArgs := true }
  else if ¬needsArchive ∧ lookahead = some "--borg-args".data ∧
      locShaped false (tryLocation arg env) then
    .cont true (acceptArchive cwd st (tryLocation arg env))
  else if st.parsingBorgArgs then
    .cont true { st with archives := appendExtra st.archives arg }
  else if arg = "-p".data ∨ arg = "--progress".data then
    .cont true { st with progress := true }
  else .cont false st

/-- The exploded short-flag loop of parse_args: each character of a bundled
single-dash token is dispatched as "-c" with the shared lookahead; an
unrecognized character aborts with a usage error. -/
def runBundle {σ : Type} (pa : Chars → Option Chars → σ → Outcome σ) :
    Chars → Option Chars → σ → RunResult σ ⊕ σ
  | [], _, st => .inr st
  | c :: cs, la, st =>
    match pa ['-', c] la st with
    | .exitHelp => .inl .exitHelp
    | .exitVersion => .inl .exitVersion
    | .usageError m => .inl (.usageError m)
    | .cont true st2 => runBundle pa cs la st2
    | .cont false _ => .inl (.usageError ("unrecognized argument: ".data ++ ['-', c]))

/-- The token loop of ArgumentParser.parse_args: a pending skip consumes
the token unseen; a single-dash token without "=" is exploded; a
double-dash token without "=", other than the toggle marker and only
outside collecting mode, is dispatched once and forces a skip of its
lookahead; every other token is dispatched as-is. -/
def argLoop {σ : Type} (pa : Chars → Option Chars → σ → Outcome σ) (collecting : σ → Bool) :
    List Chars → Bool → σ → RunResult σ
  | [], _, st => .done st
  | a :: rest, skip, st =>
    if skip then argLoop pa collecting rest false st
    else if a.take 1 = ['-'] ∧ ¬a.take 2 = ['-', '-'] ∧ '=' ∉ a then
      match runBundle pa (a.drop 1) rest.head? st with
      | .inl r => r
      | .inr st2 => argLoop pa collecting rest false st2
    else if a.take 2 = ['-', '-'] ∧ '=' ∉ a ∧ a ≠ "--borg-args".data ∧ ¬(collecting st = true) then
      match pa a rest.head? st with
      | .exitHelp => .exitHelp
      | .exitVersion => .exitVersion
      | .usageError m => .usageError m
      | .cont true st2 => argLoop pa collecting rest true st2
      | .cont false _ => .usageError ("unrecognized argument: ".data ++ a)
    else
      match pa a rest.head? st with
      | .exitHelp => .exitHelp
      | .exitVersion => .exitVersion
      | .usageError m => .usageError m
      | .cont true st2 => argLoop pa collecting rest false st2
      | .cont false _ => .usageError ("unrecognized argument: ".data ++ a)

/-- ArgumentParser.parse_args for the base machine: empty token lists print
help and exit 2; parsing_borg_args starts false; at least one archive is
required at end of parse. -/
def baseParseArgs (cwd : Chars) (env : Option Chars) (args : List Chars) (st : ArgState) :
    RunResult ArgState :=
  if args.isEmpty then .emptyArgs
  else
    match argLoop (baseParseArg cwd env true) (fun s => s.parsingBorgArgs) args false
        { st with parsingBorgArgs := false } with
    | .done st2 =>
      if st2.archives.isEmpty then .usageError "at least one archive path is required".data
      else .done st2
    | r => r

/-- BVMArgumentParser adds the domain positional on top of the base
state. -/
structure BvmState where
  base : ArgState
  domain : Option Chars
deriving DecidableEq, Repr

/-- BVMArgumentParser.parse_arg: delegate to the base machine; a token the
base machine does not recognize becomes the domain when it is unset and a
disk otherwise, and the token always counts as recognized. -/
def bvmParseArg (cwd : Chars) (env : Option Chars)
    (arg : Chars) (lookahead : Option Chars) (st : BvmState) : Outcome BvmState :=
  match baseParseArg cwd env true arg lookahead st.base with
  | .exitHelp => .exitHelp
  | .exitVersion => .exitVersion
  | .usageError m => .usageError m
  | .cont true st2 => .cont true { st with base := st2 }
  | .cont false st2 =>
    match st.domain with
    | none => .cont true { st with base := st2, domain := some arg }
    | some _ => .cont true { st with base := { st2 with disks := addSet st2.disks arg } }

/-- BVMArgumentParser.parse_args: the base run and validation followed by
the specialization's own required-fields check. -/
def bvmParseArgs (cwd : Chars) (env : Option Chars) (args : List Chars) (st : BvmState) :
    RunResult BvmState :=
  if args.isEmpty then .emptyArgs
  else
    match argLoop (bvmParseArg cwd env) (fun s => s.base.parsingBorgArgs) args false
        { st with base := { st.base with parsingBorgArgs := false } } with
    | .done st2 =>
      if st2.base.archives.isEmpty then .usageError "at least one archive path is required".data
      else if st2.domain.isNone ∨ st2.base.archives.isEmpty then
        .usageError "the following arguments are required: domain, archive".data
      else .done st2
    | r => r

/-! ## Helper lemmas: runs over concatenations -/

theorem takeWhile_append_stop {p : Char → Bool} :
    ∀ {xs : Chars} {y : Char} {ys : Chars}, (∀ a ∈ xs, p a = true) → p y = false →
      (xs ++ y :: ys).takeWhile p = xs ∧ (xs ++ y :: ys).dropWhile p = y :: ys
  | [], y, ys, _, hy => by simp [List.takeWhile_cons, List.dropWhile_cons, hy]
  | x :: xs, y, ys, hxs, hy => by
    have hx : p x = true := hxs x (List.mem_cons_self x xs)
    have ih := @takeWhile_append_stop p xs y ys
      (fun a ha => hxs a (List.mem_cons_of_mem x ha)) hy
    simp [List.takeWhile_cons, List.dropWhile_cons, hx, ih.1, ih.2]

theorem takeWhile_all {p : Char → Bool} :
    ∀ {xs : Chars}, (∀ a ∈ xs, p a = true) →
      xs.takeWhile p = xs ∧ xs.dropWhile p = []
  | [], _ => by simp
  | x :: xs, hxs => by
    have hx : p x = true := hxs x (List.mem_cons_self x xs)
    have ih := @takeWhile_all p xs
      (fun a ha => hxs a (List.mem_cons_of_mem x ha))
    simp [List.takeWhile_cons, List.dropWhile_cons, hx, ih.1, ih.2]

theorem noDC_cons {a : Char} {r : Chars} (h : noDC (a :: r) = true) : noDC r = true := by
  cases r with
  | nil => rfl
  | cons b t => exact (Bool.and_eq_true_iff.mp h).2

theorem noDC_cons_iff {a b : Char} {r : Chars} :
    noDC (a :: b :: r) = true ↔ ¬(a = ':' ∧ b = ':') ∧ noDC (b :: r) = true := by
  simp [noDC]
  tauto

/-- Every prefix of a double-colon-free list is double-colon free. -/
theorem noDC_append_left : ∀ {x y : Chars}, noDC (x ++ y) = true → noDC x = true
  | [], _, _ => rfl
  | [a], y, h => rfl
  | a :: b :: x, y, h => by
    rw [List.cons_append, List.cons_append] at h
    rcases noDC_cons_iff.mp h with ⟨hab, hrest⟩
    rw [← List.cons_append] at hrest
    exact noDC_cons_iff.mpr ⟨hab, noDC_append_left hrest⟩

theorem takeUntilDC_nil : takeUntilDC [] = ([], []) := rfl

theorem takeUntilDC_cons (a : Char) (r : Chars) :
    takeUntilDC (a :: r) =
      if a = ':' ∧ r.take 1 = [':'] then ([], a :: r)
      else ((a :: (takeUntilDC r).1, (takeUntilDC r).2)) := rfl

/-- On a double-colon-free list the path run takes everything. -/
theorem takeUntilDC_no_dc : ∀ {s : Chars}, noDC s = true → takeUntilDC s = (s, [])
  | [], _ => rfl
  | a :: r, h => by
    rw [takeUntilDC_cons]
    have hr := takeUntilDC_no_dc (noDC_cons h)
    have hcond : ¬(a = ':' ∧ r.take 1 = [':']) := by
      rintro ⟨ha, htake⟩
      cases r with
      | nil => simp at htake
      | cons b t =>
        simp [List.take] at htake
        exact (noDC_cons_iff.mp h).1 ⟨ha, htake⟩
    rw [if_neg hcond, hr]

/-- The path run stops exactly at an explicitly marked double colon. -/
theorem takeUntilDC_append_dc :
    ∀ {p : Chars} {t : Chars}, noDC p = true → p.getLast? ≠ some ':' →
      takeUntilDC (p ++ ':' :: ':' :: t) = (p, ':' :: ':' :: t)
  | [], t, _, _ => by simp [takeUntilDC_cons, List.take]
  | [a], t, _, hlast => by
    have ha : a ≠ ':' := by simpa using hlast
    simp [takeUntilDC_cons, List.take, ha]
  | a :: b :: p, t, h, hlast => by
    rcases noDC_cons_iff.mp h with ⟨hab, hrest⟩
    have hlast2 : (b :: p).getLast? ≠ some ':' := by
      rwa [List.getLast?_cons_cons] at hlast
    have ih := takeUntilDC_append_dc (p := b :: p) (t := t) hrest hlast2
    rw [List.cons_append, takeUntilDC_cons, if_neg, ih]
    rintro ⟨ha, htake⟩
    rw [List.cons_append] at htake
    simp [List.take] at htake
    exact hab ⟨ha, htake⟩

/-- The first component of the path run is double-colon free. -/
theorem noDC_takeUntilDC : ∀ {s : Chars}, noDC (takeUntilDC s).1 = true
  | [] => rfl
  | a :: r => by
    rw [takeUntilDC_cons]
    split
    · rfl
    · next hcond =>
      have ih := noDC_takeUntilDC (s := r)
      rcases hr : (takeUntilDC r).1 with _ | ⟨b, t⟩
      · rfl
      · rw [hr] at ih
        refine noDC_cons_iff.mpr ⟨?_, ih⟩
        rintro ⟨ha, hb⟩
        apply hcond
        refine ⟨ha, ?_⟩
        have hhead : r.take 1 = [b] := by
          cases r with
          | nil => simp [takeUntilDC_nil] at hr
          | cons c rr =>
            rw [takeUntilDC_cons] at hr
            split at hr
            · exact absurd hr (by simp)
            · simp at hr
              simp [List.take, hr.1]
        rw [hhead, hb]

theorem takeUntilDC_append_eq : ∀ s : Chars, (takeUntilDC s).1 ++ (takeUntilDC s).2 = s
  | [] => rfl
  | a :: r => by
    rw [takeUntilDC_cons]
    split
    · rfl
    · simpa using takeUntilDC_append_eq r

/-- A list without colons is trivially double-colon free. -/
theorem noDC_of_no_colon : ∀ {s : Chars}, ':' ∉ s → noDC s = true
  | [], _ => rfl
  | [_], _ => rfl
  | a :: b :: r, h => by
    refine noDC_cons_iff.mpr ⟨?_, noDC_of_no_colon (fun hm => h (List.mem_cons_of_mem a hm))⟩
    rintro ⟨ha, _⟩
    exact h (ha ▸ List.mem_cons_self a (b :: r))

theorem pathArch_no_dc {s : Chars} (h : noDC s = true) (hne : s ≠ []) :
    pathArch s = some (s, none) := by
  unfold pathArch
  rw [takeUntilDC_no_dc h]
  simp [hne, archOpt]

theorem pathArch_dc {p a : Chars} (h : noDC p = true) (hne : p ≠ [])
    (hlast : p.getLast? ≠ some ':') (hane : a ≠ []) (hslash : '/' ∉ a) :
    pathArch (p ++ ':' :: ':' :: a) = some (p, some a) := by
  unfold pathArch
  rw [takeUntilDC_append_dc h hlast]
  simp [hne, archOpt, List.take, hane, hslash]

/-! ## Shape facts about the individual matchers -/

theorem hostA_eq {r : Chars} {hr : Chars × Chars} (h : hostA r = some hr) :
    hr.1 = r.takeWhile hostChar ∧ hr.2 = r.dropWhile hostChar ∧ hr.1 ≠ [] := by
  unfold hostA at h
  by_cases hw : r.takeWhile hostChar = []
  · rw [if_pos hw] at h
    exact absurd h (by simp)
  · rw [if_neg hw] at h
    have h2 := Option.some.inj h
    subst h2
    exact ⟨rfl, rfl, hw⟩

theorem hostB_eq {r : Chars} {hr : Chars × Chars} (h : hostB r = some hr) :
    hr.2 = ((r.drop 1).dropWhile hostBChar).drop 1 := by
  unfold hostB at h
  by_cases hb : r.take 1 = ['[']
  · rw [if_pos hb] at h
    by_cases hc : (r.drop 1).takeWhile hostBChar ≠ [] ∧ ((r.drop 1).dropWhile hostBChar).take 1 = [']']
    · rw [if_pos hc] at h
      have h2 := Option.some.inj h
      subst h2
      rfl
    · rw [if_neg hc] at h
      exact absurd h (by simp)
  · rw [if_neg hb] at h
    exact absurd h (by simp)

theorem takeUser_eq {s : Chars} {ur : Chars × Chars} (h : takeUser s = some ur) :
    ur.1 = s.takeWhile userChar ∧ ur.2 = (s.dropWhile userChar).drop 1 ∧ ur.1 ≠ [] := by
  unfold takeUser at h
  by_cases hc : (s.dropWhile userChar).take 1 = ['@'] ∧ s.takeWhile userChar ≠ []
  · rw [if_pos hc] at h
    have h2 := Option.some.inj h
    subst h2
    exact ⟨rfl, rfl, hc.2⟩
  · rw [if_neg hc] at h
    exact absurd h (by simp)

theorem sshMatch_none_of_no_colon {s : Chars} (h : ':' ∉ s) : sshMatch s = none := by
  unfold sshMatch
  rw [if_neg]
  intro h6
  apply h
  apply List.take_subset 6
  rw [h6]
  simp

theorem fileMatch_none_of_no_colon {s : Chars} (h : ':' ∉ s) : fileMatch s = none := by
  unfold fileMatch
  rw [if_neg]
  intro h7
  apply h
  apply List.take_subset 7
  rw [h7]
  simp

theorem scpWithHost_none_of_no_colon {u : Option Chars} {r : Chars} (h : ':' ∉ r) :
    scpWithHost u r = none := by
  unfold scpWithHost
  have hA : ∀ hr : Chars × Chars, hostA r = some hr → ¬hr.2.take 1 = [':'] := by
    intro hr hhr htake
    apply h
    have h2 := (hostA_eq hhr).2.1
    have : ':' ∈ hr.2 := by
      apply List.take_subset 1
      rw [htake]
      simp
    rw [h2] at this
    exact (List.dropWhile_sublist hostChar).subset this
  have hB : ∀ hr : Chars × Chars, hostB r = some hr → ¬hr.2.take 1 = [':'] := by
    intro hr hhr htake
    apply h
    have h2 := hostB_eq hhr
    have : ':' ∈ hr.2 := by
      apply List.take_subset 1
      rw [htake]
      simp
    rw [h2] at this
    have m1 : ':' ∈ (r.drop 1).dropWhile hostBChar := List.drop_subset _ _ this
    have m2 : ':' ∈ r.drop 1 := (List.dropWhile_sublist hostBChar).subset m1
    exact List.drop_subset _ _ m2
  rcases ha : hostA r with _ | hr
  · rcases hb : hostB r with _ | hr2
    · rfl
    · simp [Option.orElse, if_neg (hB hr2 hb)]
  · rcases hb : hostB r with _ | hr2
    · simp [Option.orElse, if_neg (hA hr ha)]
    · simp [Option.orElse, if_neg (hA hr ha), if_neg (hB hr2 hb)]

theorem scpMatch_no_colon {s : Chars} (hne : s ≠ []) (h : ':' ∉ s)
    (h2 : s.take 2 ≠ ['/', '/']) : scpMatch s = some ⟨none, none, s, none⟩ := by
  have hlook : scpLookOk s = true := by
    unfold scpLookOk
    simp only [Bool.not_eq_eq_eq_not, Bool.not_true, Bool.or_eq_false_iff]
    refine ⟨⟨?_, by simpa using h2⟩, ?_⟩
    · simp only [beq_eq_false_iff_ne, ne_eq]
      intro h1
      apply h
      apply List.take_subset 1
      rw [h1]; simp
    · simp only [beq_eq_false_iff_ne, ne_eq]
      intro h6
      apply h
      apply List.take_subset 6
      rw [h6]; simp
  have hpath : scpPathArch s = some (s, none) := by
    unfold scpPathArch
    rw [if_pos hlook]
    exact pathArch_no_dc (noDC_of_no_colon h) hne
  have halt1 : ((takeUser s).bind fun ur => scpWithHost (some ur.1) ur.2) = none := by
    rcases hu : takeUser s with _ | ur
    · rfl
    · have hrest := (takeUser_eq hu).2.1
      have hsub : ':' ∉ ur.2 := by
        intro hm
        apply h
        rw [hrest] at hm
        exact (List.dropWhile_sublist userChar).subset (List.drop_subset _ _ hm)
      simp [scpWithHost_none_of_no_colon hsub]
  have halt2 : scpWithHost none s = none := scpWithHost_none_of_no_colon h
  unfold scpMatch
  rw [halt1, halt2, hpath]
  rfl

/-! ## Claim C9 -/

/-- C9: every non-empty string containing no ":" and not starting with "//"
is accepted by the location grammar via the scp-shorthand alternative,
yielding protocol "file" with user, host, port and archive absent and the
path equal to the normalized input; in particular flag-like tokens parse as
valid Locations. -/
theorem claim_C9 (s : Chars) (hne : s ≠ []) (hc : ':' ∉ s) (h2 : s.take 2 ≠ ['/', '/']) :
    parseRaw s = some ⟨"file", none, none, none, normpathSpecial s, none⟩ ∧
      scpMatch s = some ⟨none, none, s, none⟩ := by
  have hscp := scpMatch_no_colon hne hc h2
  refine ⟨?_, hscp⟩
  unfold parseRaw
  rw [sshMatch_none_of_no_colon hc, fileMatch_none_of_no_colon hc, hscp]
  rfl

/-- Witness for C9 at the flag-like tokens "--stats" and "-x". -/
theorem claim_C9_witness :
    parseRaw "--stats".data = some ⟨"file", none, none, none, "--stats".data, none⟩ ∧
      parseRaw "-x".data = some ⟨"file", none, none, none, "-x".data, none⟩ := by
  have h1 := claim_C9 "--stats".data (by decide) (by decide) (by decide)
  have h2 := claim_C9 "-x".data (by decide) (by decide) (by decide)
  exact ⟨h1.1.trans (by decide), h2.1.trans (by decide)⟩

/-! ## Claim C7 -/

/-- C7: in the outer token loop, a token that starts with "--", contains no
"=", is not "--borg-args" and arrives while the machine is not collecting
is dispatched once, and its lookahead token is then skipped unconditionally
— the loop resumes after the lookahead regardless of whether the dispatched
flag consumed the lookahead as a value.  (When the dispatch does not
recognize the token the whole parse aborts immediately with a usage error,
so no later token is examined in that case either.) -/
theorem claim_C7 {σ : Type} (pa : Chars → Option Chars → σ → Outcome σ)
    (collecting : σ → Bool) (t x : Chars) (rest : List Chars) (st st2 : σ)
    (h1 : t.take 2 = ['-', '-']) (h2 : '=' ∉ t)
    (h3 : t ≠ "--borg-args".data) (h4 : collecting st = false)
    (h5 : pa t (some x) st = .cont true st2) :
    argLoop pa collecting (t :: x :: rest) false st = argLoop pa collecting rest false st2 := by
  rw [argLoop]
  rw [if_neg (by simp), if_neg (by simp [h1]), if_pos (by simp [h1, h2, h3, h4])]
  have hla : (x :: rest).head? = some x := rfl
  rw [hla, h5]
  show argLoop pa collecting (x :: rest) true st2 = argLoop pa collecting rest false st2
  rw [argLoop, if_pos rfl]

/-- Witness for C7: the recognized value-less flag "--progress" still makes
the loop skip the next token, so the would-be-unrecognized "--bogus" is
never dispatched and the run completes. -/
theorem claim_C7_witness :
    argLoop (baseParseArg "/cwd".data none true) (fun s => s.parsingBorgArgs)
      ["--progress".data, "--bogus".data] false ⟨false, [], [], [], [], false⟩ =
      RunResult.done ⟨true, ([] : List Chars), [], [], [], false⟩ := by
  have h := claim_C7 (baseParseArg "/cwd".data none true) (fun s => s.parsingBorgArgs)
    "--progress".data "--bogus".data [] ⟨false, [], [], [], [], false⟩
    ⟨true, [], [], [], [], false⟩
    (by decide) (by decide) (by decide) (by decide) (by decide)
  exact h.trans rfl

/-! ## Claim C3 -/

/-- Counterexample to C3 as stated: accepting a new location DOES leave
collecting mode (`self.parsing_borg_args = False` in the accept branch).
In the run below, "a::x" is accepted, "--borg-args" starts collecting and
captures "p", then "b::y" is accepted as a new location; the claim says the
machine is still collecting, so the following bare token "q" would be
captured into b::y's extra_args — instead the run aborts with an
unrecognized-argument usage error.  The second conjunct shows the state
transition directly: a location-shaped token dispatched while collecting
returns a state with parsing_borg_args reset to false. -/
theorem claim_C3_counterexample :
    baseParseArgs "/cwd".data none
        ["a::x".data, "--borg-args".data, "p".data, "b::y".data, "q".data]
        ⟨false, [], [], [], [], false⟩ =
      RunResult.usageError "unrecognized argument: q".data ∧
    baseParseArg "/cwd".data none true "b::y".data none
        ⟨false, [], [], [], [⟨⟨"file", none, none, none, "/cwd/a".data, some "x".data⟩, ["p".data]⟩],
         true⟩ =
      Outcome.cont true
        ⟨false, [], [], [],
         [⟨⟨"file", none, none, none, "/cwd/a".data, some "x".data⟩, ["p".data]⟩,
          ⟨⟨"file", none, none, none, "/cwd/b".data, some "y".data⟩, []⟩],
         false⟩ := by
  constructor
  · decide
  · decide

/-- C3 amended: once the machine is collecting, a dispatched token is
captured verbatim into the most recently accepted location's extra_args
unless it is help (which exits), the toggle marker (a no-op that keeps
collecting), or a token accepted as a new location — and accepting a new
location is exactly the transition that returns the machine to NORMAL:
whenever a dispatch that started in collecting mode ends with
parsing_borg_args false, the token satisfied one of the two
location-accepting branches. -/
theorem claim_C3_amended (cwd : Chars) (env : Option Chars) (na : Bool) (arg : Chars)
    (la : Option Chars) (st : ArgState) (hcoll : st.parsingBorgArgs = true) :
    (∀ (r : Bool) (st2 : ArgState),
      baseParseArg cwd env na arg la st = .cont r st2 → st2.parsingBorgArgs = false →
      ((na = true ∧ locShaped true (tryLocation arg env) = true) ∨
       (na = false ∧ la = some "--borg-args".data ∧
        locShaped false (tryLocation arg env) = true))) ∧
    (arg ≠ "-h".data → arg ≠ "--help".data →
      ¬(na = true ∧ locShaped true (tryLocation arg env) = true) →
      arg ≠ "--borg-args".data →
      ¬(na = false ∧ la = some "--borg-args".data ∧
        locShaped false (tryLocation arg env) = true) →
      baseParseArg cwd env na arg la st =
        .cont true { st with archives := appendExtra st.archives arg }) := by
  constructor
  · intro r st2 heq hst2
    unfold baseParseArg at heq
    by_cases h1 : arg = "-h".data ∨ arg = "--help".data
    · rw [if_pos h1] at heq
      exact absurd heq (by simp)
    · rw [if_neg h1, if_neg (by simp [hcoll]), if_neg (by simp [hcoll]),
          if_neg (by simp [hcoll])] at heq
      by_cases h5 : na = true ∧ locShaped true (tryLocation arg env) = true
      · exact Or.inl h5
      · rw [if_neg (by simpa using h5)] at heq
        by_cases h6 : arg = "--borg-args".data
        · rw [if_pos h6] at heq
          by_cases h6e : st.archives.isEmpty
          · rw [if_pos h6e] at heq
            exact absurd heq (by simp)
          · rw [if_neg h6e] at heq
            have : st2 = { st with parsingBorgArgs := true } := by
              have := Outcome.cont.inj heq
              exact this.2.symm
            rw [this] at hst2
            simp at hst2
        · rw [if_neg h6] at heq
          by_cases h7 : na = false ∧ la = some "--borg-args".data ∧
              locShaped false (tryLocation arg env) = true
          · exact Or.inr h7
          · rw [if_neg (by simpa using h7), if_pos hcoll] at heq
            have : st2 = { st with archives := appendExtra st.archives arg } := by
              have := Outcome.cont.inj heq
              exact this.2.symm
            rw [this] at hst2
            rw [hcoll] at hst2
            simp at hst2
  · intro hh1 hh2 h5 h6 h7
    unfold baseParseArg
    rw [if_neg (by simp [hh1, hh2]), if_neg (by simp [hcoll]), if_neg (by simp [hcoll]),
        if_neg (by simp [hcoll]), if_neg (by simpa using h5), if_neg h6,
        if_neg (by simpa using h7), if_pos hcoll]

/-- Witness for amended C3: while collecting after "a::x", the bare flag
"--stats" is captured into extra_args (not an error), via the amended
theorem at a concrete state. -/
theorem claim_C3_amended_witness :
    baseParseArg "/cwd".data none true "--stats".data none
        ⟨false, [], [], [], [⟨⟨"file", none, none, none, "/cwd/a".data, some "x".data⟩, []⟩],
         true⟩ =
      Outcome.cont true
        ⟨false, [], [], [],
         [⟨⟨"file", none, none, none, "/cwd/a".data, some "x".data⟩, ["--stats".data]⟩],
         true⟩ := by
  have h := (claim_C3_amended "/cwd".data none true "--stats".data none
    ⟨false, [], [], [], [⟨⟨"file", none, none, none, "/cwd/a".data, some "x".data⟩, []⟩], true⟩
    rfl).2 (by decide) (by decide) (by decide) (by decide) (by decide)
  exact h.trans (by decide)

/-! ## Claim C10 -/

/-- The only usage error the base per-token classifier itself can raise is
the misplaced toggle marker. -/
theorem baseParseArg_error {cwd : Chars} {env : Option Chars} {na : Bool} {arg : Chars}
    {la : Option Chars} {st : ArgState} {m : Chars}
    (h : baseParseArg cwd env na arg la st = .usageError m) :
    m = "--borg-args must come after an archive path".data := by
  unfold baseParseArg at h
  split_ifs at h <;> simp_all

/-- The BVM per-token classifier raises only the misplaced-marker usage
error as well. -/
theorem bvmParseArg_error {cwd : Chars} {env : Option Chars} {arg : Chars}
    {la : Option Chars} {st : BvmState} {m : Chars}
    (h : bvmParseArg cwd env arg la st = .usageError m) :
    m = "--borg-args must come after an archive path".data := by
  unfold bvmParseArg at h
  rcases hb : baseParseArg cwd env true arg la st.base with _ | _ | m2 | ⟨r, st2⟩
  · rw [hb] at h
    simp at h
  · rw [hb] at h
    simp at h
  · rw [hb] at h
    simp only [Outcome.usageError.injEq] at h
    exact h ▸ baseParseArg_error hb
  · rw [hb] at h
    cases r
    · rcases hd : st.domain with _ | d <;> rw [hd] at h <;> simp at h
    · simp at h

/-- The BVM classifier recognizes every token. -/
theorem bvmParseArg_recognized {cwd : Chars} {env : Option Chars} {arg : Chars}
    {la : Option Chars} {st : BvmState} {r : Bool} {st2 : BvmState}
    (h : bvmParseArg cwd env arg la st = .cont r st2) : r = true := by
  unfold bvmParseArg at h
  rcases hb : baseParseArg cwd env true arg la st.base with _ | _ | m2 | ⟨r2, stb⟩
  · rw [hb] at h
    simp at h
  · rw [hb] at h
    simp at h
  · rw [hb] at h
    simp at h
  · rw [hb] at h
    cases r2
    · rcases hd : st.domain with _ | d <;> rw [hd] at h <;>
        exact ((Outcome.cont.inj h).1).symm
    · exact ((Outcome.cont.inj h).1).symm

theorem runBundle_bvm_error {cwd : Chars} {env : Option Chars} :
    ∀ {cs : Chars} {la : Option Chars} {st : BvmState} {m : Chars},
      runBundle (bvmParseArg cwd env) cs la st = .inl (.usageError m) →
      m = "--borg-args must come after an archive path".data
  | [], _, _, _, h => by simp [runBundle] at h
  | c :: cs, la, st, m, h => by
    rw [runBundle] at h
    rcases hb : bvmParseArg cwd env ['-', c] la st with _ | _ | m2 | ⟨r, st2⟩
    · rw [hb] at h
      simp at h
    · rw [hb] at h
      simp at h
    · rw [hb] at h
      simp only [Sum.inl.injEq, RunResult.usageError.injEq] at h
      exact h ▸ bvmParseArg_error hb
    · rw [hb] at h
      cases r
      · exact absurd (bvmParseArg_recognized hb) (by simp)
      · exact runBundle_bvm_error h

theorem argLoop_bvm_error {cwd : Chars} {env : Option Chars} {collecting : BvmState → Bool} :
    ∀ {args : List Chars} {skip : Bool} {st : BvmState} {m : Chars},
      argLoop (bvmParseArg cwd env) collecting args skip st = .usageError m →
      m = "--borg-args must come after an archive path".data
  | [], _, _, _, h => by simp [argLoop] at h
  | a :: rest, skip, st, m, h => by
    rw [argLoop] at h
    by_cases hskip : skip = true
    · rw [if_pos hskip] at h
      exact argLoop_bvm_error h
    · rw [if_neg hskip] at h
      split_ifs at h
      · rcases hrb : runBundle (bvmParseArg cwd env) (a.drop 1) rest.head? st with r | st2
        · rw [hrb] at h
          simp only at h
          subst h
          exact runBundle_bvm_error hrb
        · rw [hrb] at h
          simp only at h
          exact argLoop_bvm_error h
      · rcases hb : bvmParseArg cwd env a rest.head? st with _ | _ | m2 | ⟨r, st2⟩
        · rw [hb] at h
          simp at h
        · rw [hb] at h
          simp at h
        · rw [hb] at h
          simp only [RunResult.usageError.injEq] at h
          exact h ▸ bvmParseArg_error hb
        · rw [hb] at h
          cases r
          · exact absurd (bvmParseArg_recognized hb) (by simp)
          · exact argLoop_bvm_error h
      · rcases hb : bvmParseArg cwd env a rest.head? st with _ | _ | m2 | ⟨r, st2⟩
        · rw [hb] at h
          simp at h
        · rw [hb] at h
          simp at h
        · rw [hb] at h
          simp only [RunResult.usageError.injEq] at h
          exact h ▸ bvmParseArg_error hb
        · rw [hb] at h
          cases r
          · exact absurd (bvmParseArg_recognized hb) (by simp)
          · exact argLoop_bvm_error h

/-- C10: the domain-backup specialization recognizes every token (the
"unrecognized argument" usage error is unreachable): a token the base
machine rejects becomes the domain when the domain is unset and a disk
otherwise; consequently the only usage errors a whole run can produce are
the misplaced toggle marker and the two end-of-parse validation
messages. -/
theorem claim_C10 :
    (∀ (cwd : Chars) (env : Option Chars) (arg : Chars) (la : Option Chars)
       (st : BvmState) (r : Bool) (st2 : BvmState),
       bvmParseArg cwd env arg la st = .cont r st2 → r = true) ∧
    (∀ (cwd : Chars) (env : Option Chars) (arg : Chars) (la : Option Chars)
       (st : BvmState) (st2 : ArgState),
       baseParseArg cwd env true arg la st.base = .cont false st2 →
       (st.domain = none → bvmParseArg cwd env arg la st = .cont true ⟨st2, some arg⟩) ∧
       (∀ d, st.domain = some d → bvmParseArg cwd env arg la st =
          .cont true ⟨{ st2 with disks := addSet st2.disks arg }, some d⟩)) ∧
    (∀ (cwd : Chars) (env : Option Chars) (args : List Chars) (st : BvmState) (m : Chars),
       bvmParseArgs cwd env args st = .usageError m →
       m = "--borg-args must come after an archive path".data ∨
       m = "at least one archive path is required".data ∨
       m = "the following arguments are required: domain, archive".data) := by
  refine ⟨fun _ _ _ _ _ _ _ h => bvmParseArg_recognized h, ?_, ?_⟩
  · intro cwd env arg la st st2 hb
    constructor
    · intro hd
      unfold bvmParseArg
      rw [hb, hd]
    · intro d hd
      unfold bvmParseArg
      rw [hb, hd]
  · intro cwd env args st m h
    unfold bvmParseArgs at h
    by_cases hne : args.isEmpty
    · rw [if_pos hne] at h
      simp at h
    · rw [if_neg hne] at h
      rcases hl : argLoop (bvmParseArg cwd env) (fun s => s.base.parsingBorgArgs) args false
          { st with base := { st.base with parsingBorgArgs := false } }
        with _ | _ | m2 | _ | st2
      · rw [hl] at h
        simp at h
      · rw [hl] at h
        simp at h
      · rw [hl] at h
        simp only [RunResult.usageError.injEq] at h
        exact Or.inl (h ▸ argLoop_bvm_error hl)
      · rw [hl] at h
        simp at h
      · rw [hl] at h
        simp only at h
        by_cases he : st2.base.archives.isEmpty
        · rw [if_pos he] at h
          simp only [RunResult.usageError.injEq] at h
          exact Or.inr (Or.inl h.symm)
        · rw [if_neg he] at h
          by_cases hd : (st2.domain.isNone = true) ∨ (st2.base.archives.isEmpty = true)
          · rw [if_pos hd] at h
            simp only [RunResult.usageError.injEq] at h
            exact Or.inr (Or.inr h.symm)
          · rw [if_neg hd] at h
            simp at h

/-- Witness for C10: the base machine rejects "myvm" (a location with no
archive) and the specialization claims it as the domain; and the
misplaced-marker message produced by running ["--borg-args"] alone is one
of the three messages the theorem allows. -/
theorem claim_C10_witness :
    bvmParseArg "/cwd".data none "myvm".data none ⟨⟨false, [], [], [], [], false⟩, none⟩ =
      Outcome.cont true ⟨⟨false, [], [], [], [], false⟩, some "myvm".data⟩ ∧
    ("--borg-args must come after an archive path".data =
        "--borg-args must come after an archive path".data ∨
      "--borg-args must come after an archive path".data =
        "at least one archive path is required".data ∨
      "--borg-args must come after an archive path".data =
        "the following arguments are required: domain, archive".data) := by
  constructor
  · exact (claim_C10.2.1 "/cwd".data none "myvm".data none
      ⟨⟨false, [], [], [], [], false⟩, none⟩ ⟨false, [], [], [], [], false⟩ (by decide)).1 rfl
  · exact claim_C10.2.2 "/cwd".data none ["--borg-args".data]
      ⟨⟨false, [], [], [], [], false⟩, none⟩ _ (by decide)

/-! ## Claim C2 -/

/-- Counterexample to C2 as stated: the relative marker survives
normalization, so the parsed path "/./sub/dir" begins with "/" — it IS
absolute for os.path.isabs, hence canonicalize_path is a no-op on it and
the result is "/./sub/dir", not the claimed "/home/x/sub/dir". -/
theorem claim_C2_counterexample :
    (parseRaw "/./sub/dir".data).map (fun l => (canonicalizePath "/home/x".data l).path) =
      some "/./sub/dir".data ∧
    "/./sub/dir".data ≠ "/home/x/sub/dir".data := by
  constructor
  · decide
  · decide

/-- C2 amended: parsing "/./sub/dir" records the relative marker (the
parsed path is exactly "/./sub/dir"), but such a path starts with "/" and
is therefore absolute, so canonicalize_path against cwd "/home/x" leaves it
unchanged; an ordinary absolute "/sub/dir" is likewise untouched; and in
general canonicalize_path acts exactly when the protocol is file and the
path is not absolute, replacing the path with
normpath(join(cwd, path)). -/
theorem claim_C2_amended :
    parseRaw "/./sub/dir".data = some ⟨"file", none, none, none, "/./sub/dir".data, none⟩ ∧
    (parseRaw "/./sub/dir".data).map (canonicalizePath "/home/x".data) =
      some ⟨"file", none, none, none, "/./sub/dir".data, none⟩ ∧
    (parseRaw "/sub/dir".data).map (canonicalizePath "/home/x".data) =
      some ⟨"file", none, none, none, "/sub/dir".data, none⟩ ∧
    (∀ (cwd : Chars) (l : RawLoc), ¬(l.proto = "file" ∧ isabs l.path = false) →
      canonicalizePath cwd l = l) ∧
    (∀ (cwd : Chars) (l : RawLoc), l.proto = "file" → isabs l.path = false →
      canonicalizePath cwd l = { l with path := normpath (pyJoin cwd l.path) }) := by
  refine ⟨by decide, by decide, by decide, ?_, ?_⟩
  · intro cwd l h
    unfold canonicalizePath
    rw [if_neg]
    intro hc
    exact h ⟨hc.1, by simpa using hc.2⟩
  · intro cwd l h1 h2
    unfold canonicalizePath
    rw [if_pos ⟨h1, by simp [h2]⟩]

/-- Witness for amended C2: a genuinely relative path "sub/dir" (protocol
file, not absolute) is canonicalized against "/home/x" to
"/home/x/sub/dir". -/
theorem claim_C2_amended_witness :
    canonicalizePath "/home/x".data ⟨"file", none, none, none, "sub/dir".data, none⟩ =
      ⟨"file", none, none, none, "/home/x/sub/dir".data, none⟩ := by
  have h := claim_C2_amended.2.2.2.2 "/home/x".data
    ⟨"file", none, none, none, "sub/dir".data, none⟩ rfl (by decide)
  exact h.trans (by decide)

/-! ## Claim C4 -/

/-- C4: with BORG_REPO = "/srv/repo", the archive-only input "::nightly"
resolves to the default repository with archive "nightly"; with the
variable unset, resolution fails; and in general, whenever the fallback
path runs, the default repository string is parsed by the grammar alone
(parseRaw, with no further environment fallback) and the resulting
location's archive is overwritten with the archive captured from the
original input (possibly None). -/
theorem claim_C4 :
    locParse "::nightly".data (some "/srv/repo".data) =
      some ⟨"file", none, none, none, "/srv/repo".data, some "nightly".data⟩ ∧
    locParse "::nightly".data none = none ∧
    (∀ (text repo : Chars) (arc : Option Chars) (l : RawLoc),
      parseRaw text = none → envMatch text = some arc → parseRaw repo = some l →
      locParse text (some repo) = some { l with archive := arc }) := by
  refine ⟨by decide, by decide, ?_⟩
  intro text repo arc l h1 h2 h3
  simp only [locParse, h1, h2, h3]

/-- Witness for C4: the caller's "::" override clears the archive that the
default repository itself names ("/srv/repo::weekly" resolves with archive
None). -/
theorem claim_C4_witness :
    locParse "::".data (some "/srv/repo::weekly".data) =
      some ⟨"file", none, none, none, "/srv/repo".data, none⟩ := by
  have h := claim_C4.2.2 "::".data "/srv/repo::weekly".data none
    ⟨"file", none, none, none, "/srv/repo".data, some "weekly".data⟩
    (by decide) (by decide) (by decide)
  exact h.trans (by decide)

/-! ## Claim C5 -/

/-- Counterexample to C5 as stated: the four failure circumstances are not
caller-distinguishable.  The same input "::x" failing because the
environment variable is absent (the MissingDefaultRepo circumstance) and
failing because the environment value ":" itself fails the grammar (the
InvalidDefaultRepo circumstance) produce literally identical results — the
single ValueError with the same message. -/
theorem claim_C5_counterexample :
    parseRaw "::x".data = none ∧
    envMatch "::x".data = some (some "x".data) ∧
    parseRaw ":".data = none ∧
    locationInit "::x".data none = locationInit "::x".data (some ":".data) ∧
    locationInit "::x".data none = Except.error "Location: parse failed: ::x" := by
  refine ⟨by decide, by decide, by decide, by rfl, by rfl⟩

/-- C5 amended: resolution fails in exactly the four circumstances the spec
names — no grammar and no archive-only match (NoGrammarMatch /
InvalidLocation), archive-only match with the environment variable absent
(MissingDefaultRepo), or with an environment value that itself fails the
grammar (InvalidDefaultRepo) — and no failing input is coerced into a
best-effort result; but every failure surfaces as the single ValueError
"Location: parse failed: <orig>", so the kinds are not distinguishable by
the caller. -/
theorem claim_C5_amended (text : Chars) (env : Option Chars) :
    (locParse text env = none ↔
      (parseRaw text = none ∧
        (envMatch text = none ∨ env = none ∨
          (∃ repo, env = some repo ∧ parseRaw repo = none)))) ∧
    (locParse text env = none →
      locationInit text env = Except.error ("Location: parse failed: " ++ String.mk text)) := by
  constructor
  · unfold locParse
    rcases h1 : parseRaw text with _ | l
    · rcases h2 : envMatch text with _ | arc
      · simp
      · rcases henv : env with _ | repo
        · simp
        · rcases h3 : parseRaw repo with _ | l2
          · simp [h3]
          · simp [h3]
    · simp [h1]
  · intro h
    unfold locationInit
    rw [h]

/-- Witness for amended C5: an input failing every grammar and the
archive-only pattern (":") fails with the single ValueError, via the
amended theorem. -/
theorem claim_C5_amended_witness :
    locationInit ":".data none = Except.error "Location: parse failed: :" := by
  have h := (claim_C5_amended ":".data none).2 (by decide)
  exact h.trans rfl

/-! ## Claim C6 -/

/-- C6: the grammar parser tries ssh_re, file_re, scp_re in this fixed
order and stops at the first match; the input "ssh://user@host/path::arc"
is matched by the SSH grammar with the expected fields, and the
scp-shorthand grammar does not even match it (the negative lookahead
rejects the "ssh://" prefix and the host alternative dead-ends), so it
cannot be misread as shorthand. -/
theorem claim_C6 :
    parseRaw "ssh://user@host/path::arc".data =
      some ⟨"ssh", some "user".data, some "host".data, none, "/path".data, some "arc".data⟩ ∧
    scpMatch "ssh://user@host/path::arc".data = none ∧
    (∀ (s : Chars) (g : SshG), sshMatch s = some g → parseRaw s = some (ofSsh g)) ∧
    (∀ (s : Chars) (pa : Chars × Option Chars), sshMatch s = none → fileMatch s = some pa →
      parseRaw s = some (ofFile pa)) ∧
    (∀ (s : Chars) (g : ScpG), sshMatch s = none → fileMatch s = none → scpMatch s = some g →
      parseRaw s = some (ofScp g)) := by
  refine ⟨by decide, by decide, ?_, ?_, ?_⟩
  · intro s g h
    unfold parseRaw
    rw [h]
  · intro s pa h1 h2
    unfold parseRaw
    rw [h1, h2]
  · intro s g h1 h2 h3
    unfold parseRaw
    rw [h1, h2, h3]
    rfl

/-- Witness for C6: the first-match rule applied at the concrete input
"ssh://h/p" (accepted by the SSH grammar and therefore parsed by it). -/
theorem claim_C6_witness :
    parseRaw "ssh://h/p".data =
      some (ofSsh ⟨none, "h".data, none, "/p".data, none⟩) := by
  exact claim_C6.2.2.1 "ssh://h/p".data ⟨none, "h".data, none, "/p".data, none⟩ (by decide)

/-! ## Claim C8 -/

/-- Counterexample to C8 as stated: Location defines __hash__ but no
__eq__, so Python equality is object identity.  The two distinct Location
objects built from "a//b" and from "a/b" have equal canonical string forms
("a/b"), yet they are different objects — already their orig attributes
differ — so "equal iff canonical forms equal" fails (Python identity
implies attribute-wise equality, and these objects are not even
attribute-wise equal). -/
theorem claim_C8_counterexample :
    mkLocation "a//b".data none =
      some ⟨⟨"file", none, none, none, "a/b".data, none⟩, "a//b".data⟩ ∧
    mkLocation "a/b".data none =
      some ⟨⟨"file", none, none, none, "a/b".data, none⟩, "a/b".data⟩ ∧
    pyLocStr ⟨⟨"file", none, none, none, "a/b".data, none⟩, "a//b".data⟩ =
      pyLocStr ⟨⟨"file", none, none, none, "a/b".data, none⟩, "a/b".data⟩ ∧
    (⟨⟨"file", none, none, none, "a/b".data, none⟩, "a//b".data⟩ : PyLocation) ≠
      ⟨⟨"file", none, none, none, "a/b".data, none⟩, "a/b".data⟩ := by
  refine ⟨by decide, by decide, by decide, by decide⟩

/-- C8 amended: the hash IS computed from the canonical string form —
`hash(str(self))` for Python's hash function h — so Locations with equal
canonical forms always hash alike, and object identity (modelled
conservatively: identical objects agree on every attribute) implies equal
canonical forms; but the converse fails because the class defines no
__eq__, so equality is object identity and not determined by the canonical
form. -/
theorem claim_C8_amended :
    (∀ (h : Chars → UInt64) (pl : PyLocation), locationHash h pl = h (pyLocStr pl)) ∧
    (∀ (h : Chars → UInt64) (a b : PyLocation), pyLocStr a = pyLocStr b →
      locationHash h a = locationHash h b) ∧
    (∀ a b : PyLocation, a = b → pyLocStr a = pyLocStr b) := by
  refine ⟨fun _ _ => rfl, ?_, ?_⟩
  · intro h a b hab
    unfold locationHash
    rw [hab]
  · intro a b hab
    rw [hab]

/-- Witness for amended C8: the two canonically equal Locations from
"x//y" and "x/y" receive equal hashes for any hash function, instantiated
at list length. -/
theorem claim_C8_amended_witness :
    locationHash (fun s => UInt64.ofNat s.length)
        ⟨⟨"file", none, none, none, "x/y".data, none⟩, "x//y".data⟩ =
      locationHash (fun s => UInt64.ofNat s.length)
        ⟨⟨"file", none, none, none, "x/y".data, none⟩, "x/y".data⟩ := by
  exact claim_C8_amended.2.1 (fun s => UInt64.ofNat s.length)
    ⟨⟨"file", none, none, none, "x/y".data, none⟩, "x//y".data⟩
    ⟨⟨"file", none, none, none, "x/y".data, none⟩, "x/y".data⟩ (by decide)

/-! ## normpath theory (for the round-trip claim) -/

theorem noDC_cons_of_ne {c : Char} {b : Chars} (hc : c ≠ ':') (hb : noDC b = true) :
    noDC (c :: b) = true := by
  cases b with
  | nil => rfl
  | cons x t => exact noDC_cons_iff.mpr ⟨fun hcx => hc hcx.1, hb⟩

theorem noDC_append_mid {c : Char} (hc : c ≠ ':') :
    ∀ {a b : Chars}, noDC a = true → noDC b = true → noDC (a ++ c :: b) = true
  | [], b, _, hb => noDC_cons_of_ne hc hb
  | [x], b, _, hb => noDC_cons_iff.mpr ⟨fun hx => hc hx.2, noDC_cons_of_ne hc hb⟩
  | x :: y :: a, b, ha, hb => by
    rcases noDC_cons_iff.mp ha with ⟨hxy, hrest⟩
    exact noDC_cons_iff.mpr ⟨hxy, noDC_append_mid hc hrest hb⟩

theorem splitSlash_ne_nil : ∀ p : Chars, splitSlash p ≠ []
  | [] => by simp [splitSlash]
  | c :: r => by
    unfold splitSlash
    by_cases hc : c = '/'
    · simp [hc]
    · rw [if_neg hc]
      rcases h : splitSlash r with _ | ⟨h1, t⟩ <;> simp

theorem splitSlash_no_slash : ∀ (p : Chars) (c : Chars), c ∈ splitSlash p → '/' ∉ c
  | [], c, hm => by
    simp [splitSlash] at hm
    simp [hm]
  | x :: r, c, hm => by
    unfold splitSlash at hm
    by_cases hx : x = '/'
    · rw [if_pos hx] at hm
      rcases List.mem_cons.mp hm with hm | hm
      · simp [hm]
      · exact splitSlash_no_slash r c hm
    · rw [if_neg hx] at hm
      rcases hsp : splitSlash r with _ | ⟨h1, t⟩
      · exact absurd hsp (splitSlash_ne_nil r)
      · rw [hsp] at hm
        rcases List.mem_cons.mp hm with hm | hm
        · subst hm
          intro hsl
          rcases List.mem_cons.mp hsl with hsl | hsl
          · exact hx hsl.symm
          · exact splitSlash_no_slash r h1 (hsp ▸ List.mem_cons_self h1 t) hsl
        · exact splitSlash_no_slash r c (hsp ▸ List.mem_cons_of_mem h1 hm)

/-- The head component of splitSlash is a prefix of the input. -/
theorem splitSlash_head_prefix : ∀ (p : Chars) (h1 : Chars) (t : List Chars),
    splitSlash p = h1 :: t → ∃ q, p = h1 ++ q
  | [], h1, t, h => by
    simp [splitSlash] at h
    exact ⟨[], by simp [h.1.symm]⟩
  | x :: r, h1, t, h => by
    unfold splitSlash at h
    by_cases hx : x = '/'
    · rw [if_pos hx] at h
      exact ⟨x :: r, by simp [(List.cons.inj h).1.symm]⟩
    · rw [if_neg hx] at h
      rcases hsp : splitSlash r with _ | ⟨h2, t2⟩
      · exact absurd hsp (splitSlash_ne_nil r)
      · rw [hsp] at h
        obtain ⟨he, _⟩ := List.cons.inj h
        obtain ⟨q, hq⟩ := splitSlash_head_prefix r h2 t2 hsp
        exact ⟨q, by rw [← he, hq]; rfl⟩

theorem noDC_splitSlash : ∀ (p : Chars), noDC p = true → ∀ c ∈ splitSlash p, noDC c = true
  | [], _, c, hm => by
    simp [splitSlash] at hm
    simp [hm, noDC]
  | x :: r, hp, c, hm => by
    unfold splitSlash at hm
    by_cases hx : x = '/'
    · rw [if_pos hx] at hm
      rcases List.mem_cons.mp hm with hm | hm
      · simp [hm, noDC]
      · exact noDC_splitSlash r (noDC_cons hp) c hm
    · rw [if_neg hx] at hm
      rcases hsp : splitSlash r with _ | ⟨h1, t⟩
      · exact absurd hsp (splitSlash_ne_nil r)
      · rw [hsp] at hm
        rcases List.mem_cons.mp hm with hm | hm
        · subst hm
          obtain ⟨q, hq⟩ := splitSlash_head_prefix r h1 t hsp
          have : noDC (x :: (h1 ++ q)) = true := hq ▸ hp
          exact noDC_append_left (x := x :: h1) (y := q) (by simpa using this)
        · exact noDC_splitSlash r (noDC_cons hp) c (hsp ▸ List.mem_cons_of_mem h1 hm)

theorem noDC_intercalate : ∀ (L : List Chars),
    (∀ c ∈ L, noDC c = true ∧ '/' ∉ c) → noDC (List.intercalate ['/'] L) = true
  | [], _ => rfl
  | [c], h => by
    simpa [List.intercalate] using (h c (by simp)).1
  | c :: c2 :: t, h => by
    have hc := h c (by simp)
    have ih := noDC_intercalate (c2 :: t) (fun x hx => h x (List.mem_cons_of_mem c hx))
    have : List.intercalate ['/'] (c :: c2 :: t) =
        c ++ '/' :: List.intercalate ['/'] (c2 :: t) := by
      simp [List.intercalate, List.intersperse]
    rw [this]
    exact noDC_append_mid (by decide) hc.1 ih

theorem noDC_replicate_slash : ∀ (k : Nat) {x : Chars}, noDC x = true →
    noDC (List.replicate k '/' ++ x) = true
  | 0, x, hx => hx
  | k + 1, x, hx => by
    rw [List.replicate_succ, List.cons_append]
    exact noDC_cons_of_ne (by decide) (noDC_replicate_slash k hx)

theorem foldl_normStep_mem {isl : Nat} : ∀ (L : List Chars) (acc : List Chars) (c : Chars),
    c ∈ L.foldl (normStep isl) acc → c ∈ acc ∨ c ∈ L
  | [], acc, c, h => Or.inl h
  | comp :: L, acc, c, h => by
    rcases foldl_normStep_mem L (normStep isl acc comp) c h with h2 | h2
    · unfold normStep at h2
      split_ifs at h2
      · exact Or.inl h2
      · rcases List.mem_append.mp h2 with h3 | h3
        · exact Or.inl h3
        · exact Or.inr (by simp [show c = comp from by simpa using h3])
      · rw [List.dropLast_eq_take] at h2
        exact Or.inl (List.take_subset _ _ h2)
      · exact Or.inl h2
    · exact Or.inr (List.mem_cons_of_mem comp h2)

theorem noDC_normpath {p : Chars} (hp : noDC p = true) : noDC (normpath p) = true := by
  unfold normpath
  by_cases hnil : p = []
  · rw [if_pos hnil]
    rfl
  · rw [if_neg hnil]
    simp only
    split
    · rfl
    · apply noDC_replicate_slash
      apply noDC_intercalate
      intro c hc
      rcases foldl_normStep_mem (splitSlash p) [] c hc with h | h
      · simp at h
      · exact ⟨noDC_splitSlash p hp c h, splitSlash_no_slash p c h⟩

theorem islOf_pos {p : Chars} (h : p.take 1 = ['/']) : islOf p = 1 ∨ islOf p = 2 := by
  unfold islOf
  rw [if_pos h]
  split
  · exact Or.inr rfl
  · exact Or.inl rfl

theorem normpath_abs {p : Chars} (h : p.take 1 = ['/']) :
    (normpath p).take 1 = ['/'] ∧ normpath p ≠ [] := by
  have hnil : p ≠ [] := by
    intro hn
    rw [hn] at h
    simp at h
  unfold normpath
  rw [if_neg hnil]
  simp only
  rcases islOf_pos h with h1 | h1 <;> rw [h1] <;>
    · rw [if_neg (by simp)]
      simp

theorem noDC_normpathSpecial {p : Chars} (hp : noDC p = true) :
    noDC (normpathSpecial p) = true := by
  unfold normpathSpecial
  simp only
  split
  · exact noDC_cons_of_ne (by decide) (noDC_cons_of_ne (by decide) (noDC_normpath hp))
  · exact noDC_normpath hp

theorem normpathSpecial_abs {p : Chars} (h : p.take 1 = ['/']) :
    (normpathSpecial p).take 1 = ['/'] ∧ normpathSpecial p ≠ [] := by
  unfold normpathSpecial
  simp only
  split
  · simp
  · exact normpath_abs h

/-! ## Idempotence of normalization on absolute paths -/

theorem intercalate_nil_arg : List.intercalate (['/'] : Chars) [] = [] := by
  simp [List.intercalate]

theorem intercalate_single (c : Chars) : List.intercalate ['/'] [c] = c := by
  simp [List.intercalate]

theorem intercalate_cons_cons (c c2 : Chars) (t : List Chars) :
    List.intercalate ['/'] (c :: c2 :: t) = c ++ '/' :: List.intercalate ['/'] (c2 :: t) := by
  simp [List.intercalate, List.intersperse]

/-- After folding an absolute path's components, every kept component is
non-empty, not ".", not ".." and slash-free. -/
theorem foldl_normStep_good {isl : Nat} (hisl : 1 ≤ isl) :
    ∀ (L : List Chars) (acc : List Chars),
      (∀ c ∈ L, '/' ∉ c) →
      (∀ c ∈ acc, c ≠ [] ∧ c ≠ ['.'] ∧ c ≠ ['.', '.'] ∧ '/' ∉ c) →
      ∀ c ∈ L.foldl (normStep isl) acc, c ≠ [] ∧ c ≠ ['.'] ∧ c ≠ ['.', '.'] ∧ '/' ∉ c
  | [], acc, _, hacc, c, hc => hacc c hc
  | comp :: L, acc, hL, hacc, c, hc => by
    refine foldl_normStep_good hisl L (normStep isl acc comp)
      (fun x hx => hL x (List.mem_cons_of_mem comp hx)) ?_ c hc
    intro x hx
    unfold normStep at hx
    split_ifs at hx with h1 h2 h3
    · exact hacc x hx
    · rcases List.mem_append.mp hx with h4 | h4
      · exact hacc x h4
      · have hxc : x = comp := by simpa using h4
        rw [hxc]
        push_neg at h1
        refine ⟨h1.1, h1.2, ?_, hL comp (List.mem_cons_self comp L)⟩
        rcases h2 with h2 | h2 | h2
        · exact h2
        · omega
        · obtain ⟨hne, hlast⟩ := h2
          obtain ⟨hh, hx2⟩ := List.mem_getLast?_eq_getLast (l := acc) (x := ['.', '.'])
            (by exact hlast)
          have hmem : (['.', '.'] : Chars) ∈ acc := by
            rw [hx2]
            exact List.getLast_mem hh
          exact absurd rfl (hacc _ hmem).2.2.1
    · rw [List.dropLast_eq_take] at hx
      exact hacc x (List.take_subset _ _ hx)
    · exact hacc x hx

/-- Components that are neither skippable nor pop-eligible are appended in
order. -/
theorem foldl_normStep_append {isl : Nat} :
    ∀ (L : List Chars) (acc : List Chars),
      (∀ c ∈ L, c ≠ [] ∧ c ≠ ['.'] ∧ c ≠ ['.', '.']) →
      L.foldl (normStep isl) acc = acc ++ L
  | [], acc, _ => by simp
  | comp :: L, acc, hL => by
    have hcomp := hL comp (List.mem_cons_self comp L)
    have hstep : normStep isl acc comp = acc ++ [comp] := by
      unfold normStep
      rw [if_neg (by simp [hcomp.1, hcomp.2.1]), if_pos (Or.inl hcomp.2.2)]
    rw [List.foldl_cons, hstep,
      foldl_normStep_append L (acc ++ [comp]) (fun x hx => hL x (List.mem_cons_of_mem comp hx))]
    simp

/-- Empty components are skipped. -/
theorem foldl_normStep_empties {isl : Nat} :
    ∀ (k : Nat) (L : List Chars) (acc : List Chars),
      (List.replicate k [] ++ L).foldl (normStep isl) acc = L.foldl (normStep isl) acc
  | 0, _, _ => rfl
  | k + 1, L, acc => by
    rw [List.replicate_succ, List.cons_append, List.foldl_cons]
    have : normStep isl acc [] = acc := by simp [normStep]
    rw [this, foldl_normStep_empties k L acc]

theorem splitSlash_cons (c : Char) (r : Chars) :
    splitSlash (c :: r) =
      if c = '/' then [] :: splitSlash r
      else
        match splitSlash r with
        | [] => [[c]]
        | h :: t => (c :: h) :: t := by
  simp [splitSlash]

theorem splitSlash_single {c : Chars} (h : '/' ∉ c) : splitSlash c = [c] := by
  induction c with
  | nil => rfl
  | cons d r ih =>
    have hd : ¬d = '/' := fun hd => h (by rw [hd]; exact List.mem_cons_self '/' r)
    rw [splitSlash_cons, if_neg hd, ih (fun hm => h (List.mem_cons_of_mem d hm))]

theorem splitSlash_append_slash {c : Chars} (x : Chars) (h : '/' ∉ c) :
    splitSlash (c ++ '/' :: x) = c :: splitSlash x := by
  induction c with
  | nil => simp [splitSlash]
  | cons d r ih =>
    have hd : ¬d = '/' := fun hd => h (by rw [hd]; exact List.mem_cons_self '/' r)
    rw [List.cons_append, splitSlash_cons, if_neg hd,
      ih (fun hm => h (List.mem_cons_of_mem d hm))]

theorem splitSlash_intercalate :
    ∀ (L : List Chars), L ≠ [] → (∀ c ∈ L, '/' ∉ c) →
      splitSlash (List.intercalate ['/'] L) = L
  | [], h, _ => absurd rfl h
  | [c], _, hL => by
    rw [intercalate_single]
    exact splitSlash_single (hL c (by simp))
  | c :: c2 :: t, _, hL => by
    rw [intercalate_cons_cons,
      splitSlash_append_slash _ (hL c (List.mem_cons_self c (c2 :: t))),
      splitSlash_intercalate (c2 :: t) (by simp)
        (fun x hx => hL x (List.mem_cons_of_mem c hx))]

theorem splitSlash_replicate :
    ∀ (k : Nat) (x : Chars),
      splitSlash (List.replicate k '/' ++ x) = List.replicate k [] ++ splitSlash x
  | 0, _ => rfl
  | k + 1, x => by
    rw [List.replicate_succ, List.cons_append, splitSlash_cons, if_pos rfl,
      splitSlash_replicate k x, List.replicate_succ, List.cons_append]

/-- The joined components of an absolute normalized path never begin with a
slash. -/
theorem intercalate_head_ne_slash {L : List Chars}
    (hL : ∀ c ∈ L, c ≠ [] ∧ '/' ∉ c) :
    List.intercalate ['/'] L = [] ∨
      ∃ d x, List.intercalate ['/'] L = d :: x ∧ d ≠ '/' := by
  rcases L with _ | ⟨c, t⟩
  · exact Or.inl (by rw [intercalate_nil_arg])
  · right
    have hc := hL c (List.mem_cons_self c t)
    rcases hcc : c with _ | ⟨d, c2⟩
    · exact absurd hcc hc.1
    · rw [hcc] at hc
      have hd : d ≠ '/' := fun hd => hc.2 (by rw [hd]; exact List.mem_cons_self '/' c2)
      rcases t with _ | ⟨c3, t2⟩
      · exact ⟨d, c2, by rw [intercalate_single], hd⟩
      · exact ⟨d, c2 ++ '/' :: List.intercalate ['/'] (c3 :: t2),
          by rw [intercalate_cons_cons]; rfl, hd⟩

/-- islOf recovers the slash count of a rebuilt normalized absolute
path. -/
theorem islOf_rebuilt {isl : Nat} {J : Chars} (hisl : isl = 1 ∨ isl = 2)
    (hJ : J = [] ∨ ∃ d x, J = d :: x ∧ d ≠ '/') :
    islOf (List.replicate isl '/' ++ J) = isl := by
  rcases hisl with h | h <;> subst h
  · rcases hJ with h | ⟨d, x, hJ2, hd⟩
    · subst h
      rfl
    · subst hJ2
      unfold islOf
      rw [if_pos (by simp [List.replicate]), if_neg]
      simp [List.replicate, List.take]
      intro h2
      exact absurd h2 hd
  · rcases hJ with h | ⟨d, x, hJ2, hd⟩
    · subst h
      rfl
    · subst hJ2
      unfold islOf
      rw [if_pos (by simp [List.replicate]), if_pos]
      constructor
      · simp [List.replicate]
      · simp [List.replicate, List.take]
        intro h2
        exact hd h2

/-- normpath in its assembled form, for non-empty absolute input. -/
theorem normpath_shape {p : Chars} (h : p.take 1 = ['/']) :
    normpath p =
      List.replicate (islOf p) '/' ++
        List.intercalate ['/'] ((splitSlash p).foldl (normStep (islOf p)) []) := by
  have hnil : p ≠ [] := by
    intro hn
    rw [hn] at h
    simp at h
  unfold normpath
  rw [if_neg hnil]
  simp only
  rw [if_neg]
  rcases islOf_pos h with h1 | h1 <;> rw [h1] <;> simp

/-- Refolding the split of a rebuilt component list is the identity. -/
theorem foldl_split_intercalate {isl : Nat} {comps : List Chars}
    (hgood : ∀ c ∈ comps, c ≠ [] ∧ c ≠ ['.'] ∧ c ≠ ['.', '.'] ∧ '/' ∉ c) :
    (splitSlash (List.intercalate ['/'] comps)).foldl (normStep isl) [] = comps := by
  rcases hc : comps with _ | ⟨c, t⟩
  · rw [intercalate_nil_arg]
    simp [splitSlash, normStep]
  · rw [← hc]
    rw [splitSlash_intercalate comps (by rw [hc]; simp) (fun x hx => (hgood x hx).2.2.2)]
    rw [foldl_normStep_append comps []
      (fun x hx => ⟨(hgood x hx).1, (hgood x hx).2.1, (hgood x hx).2.2.1⟩)]
    rfl

/-- posixpath.normpath is idempotent on absolute paths. -/
theorem normpath_idem_abs {p : Chars} (h : p.take 1 = ['/']) :
    normpath (normpath p) = normpath p := by
  have hgood : ∀ c ∈ (splitSlash p).foldl (normStep (islOf p)) [],
      c ≠ [] ∧ c ≠ ['.'] ∧ c ≠ ['.', '.'] ∧ '/' ∉ c := by
    refine foldl_normStep_good ?_ (splitSlash p) []
      (fun c hc => splitSlash_no_slash p c hc) (by simp)
    rcases islOf_pos h with h1 | h1 <;> omega
  have hJ := intercalate_head_ne_slash
    (L := (splitSlash p).foldl (normStep (islOf p)) [])
    (fun c hc => ⟨(hgood c hc).1, (hgood c hc).2.2.2⟩)
  have hshape := normpath_shape h
  have habs := (normpath_abs h).1
  have hisl2 : islOf (normpath p) = islOf p := by
    rw [hshape]
    exact islOf_rebuilt (islOf_pos h) hJ
  rw [normpath_shape habs, hisl2]
  conv_lhs =>
    rw [hshape, splitSlash_replicate, foldl_normStep_empties,
      foldl_split_intercalate hgood]
  rw [hshape]

/-- The joined good components never begin with "./": a component "." is
excluded and no component contains a slash. -/
theorem intercalate_take2_ne_dotslash {L : List Chars}
    (hL : ∀ c ∈ L, c ≠ [] ∧ c ≠ ['.'] ∧ '/' ∉ c) :
    (List.intercalate ['/'] L).take 2 ≠ ['.', '/'] := by
  rcases L with _ | ⟨c, t⟩
  · rw [intercalate_nil_arg]
    simp
  · have hc := hL c (List.mem_cons_self c t)
    rcases hcc : c with _ | ⟨d, c2⟩
    · exact absurd hcc hc.1
    · rw [hcc] at hc
      rcases c2 with _ | ⟨e, c3⟩
      · have hd : d ≠ '.' := fun hdd => hc.2.1 (by rw [hdd])
        rcases t with _ | ⟨c4, t2⟩
        · rw [intercalate_single]
          simp
        · rw [intercalate_cons_cons]
          intro hcon
          simp [List.take] at hcon
          exact hd hcon
      · have he : e ≠ '/' := fun hee =>
          hc.2.2 (by rw [hee]; exact List.mem_cons_of_mem d (List.mem_cons_self '/' c3))
        rcases t with _ | ⟨c4, t2⟩
        · rw [intercalate_single]
          intro hcon
          simp [List.take] at hcon
          exact he hcon.2
        · rw [intercalate_cons_cons]
          intro hcon
          simp [List.take] at hcon
          exact he hcon.2

/-- The output of normpath on an absolute path never starts with the
relative marker "/./". -/
theorem normpath_not_marker {p : Chars} (h : p.take 1 = ['/']) :
    (normpath p).take 3 ≠ ['/', '.', '/'] := by
  have hgood : ∀ c ∈ (splitSlash p).foldl (normStep (islOf p)) [],
      c ≠ [] ∧ c ≠ ['.'] ∧ c ≠ ['.', '.'] ∧ '/' ∉ c := by
    refine foldl_normStep_good ?_ (splitSlash p) []
      (fun c hc => splitSlash_no_slash p c hc) (by simp)
    rcases islOf_pos h with h1 | h1 <;> omega
  rw [normpath_shape h]
  rcases islOf_pos h with h1 | h1 <;> rw [h1]
  · have := intercalate_take2_ne_dotslash
      (L := (splitSlash p).foldl (normStep (islOf p)) [])
      (fun c hc => ⟨(hgood c hc).1, (hgood c hc).2.1, (hgood c hc).2.2.2⟩)
    rw [h1] at this
    rcases hJ : List.intercalate ['/'] ((splitSlash p).foldl (normStep 1) []) with _ | ⟨d, x⟩
    · simp [List.replicate]
    · rw [hJ] at this
      intro hcon
      apply this
      simp [List.replicate, List.take] at hcon
      simp [List.take, hcon.1, hcon.2]
  · rcases List.intercalate ['/'] ((splitSlash p).foldl (normStep 2) []) with _ | ⟨d, x⟩ <;>
      simp [List.replicate, List.take]

/-- Re-normalizing "/." plus an absolute normalized relative-marker path
gives the normalized path back. -/
theorem normpath_slashdot {p : Chars} (h3 : p.take 3 = ['/', '.', '/']) :
    normpath ('/' :: '.' :: normpath p) = normpath p := by
  have h1 : p.take 1 = ['/'] := by
    rcases p with _ | ⟨a, r⟩
    · simp at h3
    · simp [List.take] at h3 ⊢
      exact h3.1
  have hisl : islOf p = 1 := by
    rcases p with _ | ⟨a, r⟩
    · simp at h3
    · rcases r with _ | ⟨b, r2⟩
      · simp [List.take] at h3
      · simp [List.take] at h3
        unfold islOf
        rw [if_pos (by simp [List.take, h3.1]), if_neg]
        simp [List.take, h3.1, h3.2.1]
  have hgood : ∀ c ∈ (splitSlash p).foldl (normStep 1) [],
      c ≠ [] ∧ c ≠ ['.'] ∧ c ≠ ['.', '.'] ∧ '/' ∉ c := by
    have h0 := @foldl_normStep_good (islOf p) (by omega) (splitSlash p) []
      (fun c hc => splitSlash_no_slash p c hc) (by simp)
    rwa [hisl] at h0
  have hshape : normpath p =
      '/' :: List.intercalate ['/'] ((splitSlash p).foldl (normStep 1) []) := by
    have h0 := normpath_shape h1
    rw [hisl] at h0
    simpa [List.replicate] using h0
  have hxisl : islOf ('/' :: '.' :: normpath p) = 1 := by
    simp [islOf, List.take]
  have hsplit : splitSlash ('/' :: '.' :: normpath p) =
      [] :: ['.'] ::
        splitSlash (List.intercalate ['/'] ((splitSlash p).foldl (normStep 1) [])) := by
    rw [hshape, splitSlash_cons, if_pos rfl]
    congr 1
  have hxabs : ('/' :: '.' :: normpath p).take 1 = ['/'] := rfl
  rw [normpath_shape hxabs, hxisl, hsplit, List.foldl_cons, List.foldl_cons,
    show normStep 1 [] [] = [] from by simp [normStep],
    show normStep 1 ([] : List Chars) ['.'] = [] from by simp [normStep],
    foldl_split_intercalate hgood, hshape]
  simp [List.replicate]

/-- normpath_special is idempotent on absolute raw paths — the form every
ssh-grammar path takes. -/
theorem normpathSpecial_idem_abs {p : Chars} (h : p.take 1 = ['/']) :
    normpathSpecial (normpathSpecial p) = normpathSpecial p := by
  unfold normpathSpecial
  simp only
  by_cases hrel : p.take 3 = ['/', '.', '/']
  · rw [if_pos hrel]
    have hnp1 : (normpath p).take 1 = ['/'] := (normpath_abs h).1
    have hmark : ('/' :: '.' :: normpath p).take 3 = ['/', '.', '/'] := by
      rcases hnp : normpath p with _ | ⟨d, x⟩
      · exact absurd hnp (normpath_abs h).2
      · rw [hnp] at hnp1
        simp [List.take] at hnp1 ⊢
        exact hnp1
    rw [if_pos hmark, normpath_slashdot hrel]
  · rw [if_neg hrel, if_neg (normpath_not_marker h)]
    exact normpath_idem_abs h

/-! ## Field invariants of the ssh grammar -/

theorem orElse_eq_some_cases {α : Type} {a b : Option α} {x : α} (h : (a <|> b) = some x) :
    a = some x ∨ (a = none ∧ b = some x) := by
  cases a with
  | none => exact Or.inr ⟨rfl, by simpa [Option.orElse] using h⟩
  | some y => exact Or.inl (by simpa [Option.orElse] using h)

theorem takeWhile_append_all {p : Char → Bool} :
    ∀ {xs ys : Chars}, (∀ a ∈ xs, p a = true) →
      (xs ++ ys).takeWhile p = xs ++ ys.takeWhile p ∧
      (xs ++ ys).dropWhile p = ys.dropWhile p
  | [], ys, _ => ⟨rfl, rfl⟩
  | x :: xs, ys, hxs => by
    have hx : p x = true := hxs x (List.mem_cons_self x xs)
    have ih := @takeWhile_append_all p xs ys
      (fun a ha => hxs a (List.mem_cons_of_mem x ha))
    simp [List.takeWhile_cons, List.dropWhile_cons, hx, ih.1, ih.2]

theorem hostA_facts {r : Chars} {hr : Chars × Chars} (h : hostA r = some hr) :
    hr.1 ≠ [] ∧ '/' ∉ hr.1 ∧ ':' ∉ hr.1 := by
  obtain ⟨h1, _, h3⟩ := hostA_eq h
  refine ⟨h3, ?_, ?_⟩
  · intro hm
    rw [h1] at hm
    have := List.mem_takeWhile_imp hm
    simp [hostChar] at this
  · intro hm
    rw [h1] at hm
    have := List.mem_takeWhile_imp hm
    simp [hostChar] at this

theorem hostB_shape {r : Chars} {hr : Chars × Chars} (h : hostB r = some hr) :
    ∃ w, hr.1 = '[' :: (w ++ [']']) ∧ (∀ c ∈ w, hostBChar c = true) ∧ w ≠ [] := by
  unfold hostB at h
  by_cases hb : r.take 1 = ['[']
  · rw [if_pos hb] at h
    by_cases hc : (r.drop 1).takeWhile hostBChar ≠ [] ∧
        ((r.drop 1).dropWhile hostBChar).take 1 = [']']
    · rw [if_pos hc] at h
      have h2 := Option.some.inj h
      refine ⟨(r.drop 1).takeWhile hostBChar, ?_, ?_, hc.1⟩
      · rw [← h2]
      · intro c hcm
        exact List.mem_takeWhile_imp hcm
    · rw [if_neg hc] at h
      exact absurd h (by simp)
  · rw [if_neg hb] at h
    exact absurd h (by simp)

theorem hostB_facts {r : Chars} {hr : Chars × Chars} (h : hostB r = some hr) :
    hr.1 ≠ [] ∧ '/' ∉ hr.1 ∧ '@' ∉ hr.1 := by
  obtain ⟨w, hw, hwc, _⟩ := hostB_shape h
  rw [hw]
  refine ⟨by simp, ?_, ?_⟩
  · intro hm
    rcases List.mem_cons.mp hm with hm | hm
    · simp at hm
    · rcases List.mem_append.mp hm with hm | hm
      · have := hwc _ hm
        simp [hostBChar] at this
      · simp at hm
  · intro hm
    rcases List.mem_cons.mp hm with hm | hm
    · simp at hm
    · rcases List.mem_append.mp hm with hm | hm
      · have := hwc _ hm
        simp [hostBChar] at this
      · simp at hm

theorem takeUser_chars {s : Chars} {ur : Chars × Chars} (h : takeUser s = some ur) :
    ur.1 ≠ [] ∧ ∀ c ∈ ur.1, userChar c = true := by
  obtain ⟨h1, _, h3⟩ := takeUser_eq h
  exact ⟨h3, fun c hc => List.mem_takeWhile_imp (h1 ▸ hc)⟩

theorem archOpt_facts {x : Chars} {arc : Chars} (h : archOpt x = some (some arc)) :
    arc ≠ [] ∧ '/' ∉ arc := by
  unfold archOpt at h
  by_cases h1 : x = []
  · rw [if_pos h1] at h
    simp at h
  · rw [if_neg h1] at h
    by_cases h2 : x.take 2 = [':', ':']
    · rw [if_pos h2] at h
      by_cases h3 : x.drop 2 ≠ [] ∧ '/' ∉ x.drop 2
      · rw [if_pos h3] at h
        have h4 : x.drop 2 = arc := Option.some.inj (Option.some.inj h)
        exact h4 ▸ h3
      · rw [if_neg h3] at h
        simp at h
    · rw [if_neg h2] at h
      simp at h

theorem takeUntilDC_fst_head {r : Chars} (hne : (takeUntilDC r).1 ≠ []) :
    (takeUntilDC r).1.take 1 = r.take 1 := by
  cases r with
  | nil => simp [takeUntilDC] at hne
  | cons c rr =>
    by_cases hcond : c = ':' ∧ rr.take 1 = [':']
    · rw [takeUntilDC_cons, if_pos hcond] at hne
      simp at hne
    · rw [takeUntilDC_cons, if_neg hcond]
      simp [List.take]

theorem absPathArch_facts {r : Chars} {p : Chars} {a : Option Chars}
    (h : absPathArch r = some (p, a)) :
    p.take 1 = ['/'] ∧ noDC p = true ∧ p ≠ [] ∧
      (∀ a', a = some a' → a' ≠ [] ∧ '/' ∉ a') := by
  unfold absPathArch at h
  by_cases hr : r.take 1 = ['/']
  · rw [if_pos hr] at h
    rcases hpa : pathArch r with _ | pa
    · rw [hpa] at h
      exact absurd h (by simp)
    · rw [hpa] at h
      simp only [Option.some_bind] at h
      by_cases hlen : 2 ≤ pa.1.length
      · rw [if_pos hlen] at h
        have h2 := Option.some.inj h
        unfold pathArch at hpa
        by_cases hfst : (takeUntilDC r).1 = []
        · rw [if_pos hfst] at hpa
          exact absurd hpa (by simp)
        · rw [if_neg hfst] at hpa
          rcases hao : archOpt (takeUntilDC r).2 with _ | a2
          · rw [hao] at hpa
            exact absurd hpa (by simp)
          · rw [hao] at hpa
            simp only [Option.map_some'] at hpa
            have h3 := Option.some.inj hpa
            rw [h2] at h3
            have h3p : (takeUntilDC r).1 = p := congrArg Prod.fst h3
            have h3a : a2 = a := congrArg Prod.snd h3
            refine ⟨?_, ?_, ?_, ?_⟩
            · rw [← h3p]
              rw [takeUntilDC_fst_head hfst, hr]
            · rw [← h3p]
              exact noDC_takeUntilDC
            · rw [← h3p]
              exact hfst
            · intro a' ha'
              rw [h3a, ha'] at hao
              exact archOpt_facts hao
      · rw [if_neg hlen] at h
        exact absurd h (by simp)
  · rw [if_neg hr] at h
    exact absurd h (by simp)

theorem portPath_facts {r : Chars} {pt : Option Nat} {p : Chars} {a : Option Chars}
    (h : portPath r = some (pt, p, a)) :
    p.take 1 = ['/'] ∧ noDC p = true ∧ p ≠ [] ∧
      (∀ a', a = some a' → a' ≠ [] ∧ '/' ∉ a') := by
  unfold portPath at h
  by_cases hc : r.take 1 = [':']
  · rw [if_pos hc] at h
    by_cases hds : (r.drop 1).takeWhile Char.isDigit = []
    · rw [if_pos hds] at h
      exact absurd h (by simp)
    · rw [if_neg hds] at h
      rcases hap : absPathArch ((r.drop 1).dropWhile Char.isDigit) with _ | pa
      · rw [hap] at h
        exact absurd h (by simp)
      · rw [hap] at h
        simp only [Option.map_some'] at h
        have h2 := Option.some.inj h
        have hp2 : pa.1 = p := congrArg (fun z => z.2.1) h2
        have ha2 : pa.2 = a := congrArg (fun z => z.2.2) h2
        have hfacts := absPathArch_facts hap
        rw [hp2, ha2] at hfacts
        exact hfacts
  · rw [if_neg hc] at h
    rcases hap : absPathArch r with _ | pa
    · rw [hap] at h
      exact absurd h (by simp)
    · rw [hap] at h
      simp only [Option.map_some'] at h
      have h2 := Option.some.inj h
      have hp2 : pa.1 = p := congrArg (fun z => z.2.1) h2
      have ha2 : pa.2 = a := congrArg (fun z => z.2.2) h2
      have hfacts := absPathArch_facts hap
      rw [hp2, ha2] at hfacts
      exact hfacts

theorem orElse_eq_none_parts {α : Type} {a b : Option α} (h : (a <|> b) = none) :
    a = none ∧ b = none := by
  cases a with
  | none => exact ⟨rfl, by simpa [Option.orElse] using h⟩
  | some y => simp [Option.orElse] at h

theorem take1_eq_cons {l : Chars} {c : Char} (h : l.take 1 = [c]) : l = c :: l.drop 1 := by
  cases l with
  | nil => simp at h
  | cons a r =>
    simp [List.take] at h
    rw [h]
    rfl

theorem userChar_hostChar {c : Char} (h : userChar c = true) : hostChar c = true := by
  by_cases h1 : c = ':'
  · rw [h1] at h
    simp [userChar] at h
  · by_cases h2 : c = '/'
    · rw [h2] at h
      simp [userChar] at h
    · simp [hostChar, h1, h2]

theorem userChar_all_not_mem {w : Chars} (hw : ∀ c ∈ w, userChar c = true) :
    '@' ∉ w ∧ ':' ∉ w ∧ '/' ∉ w := by
  refine ⟨fun hm => ?_, fun hm => ?_, fun hm => ?_⟩
  · have := hw _ hm
    simp [userChar] at this
  · have := hw _ hm
    simp [userChar] at this
  · have := hw _ hm
    simp [userChar] at this

theorem dropWhile_head_false {p : Char → Bool} :
    ∀ {l : Chars} {c : Char} {rest : Chars}, l.dropWhile p = c :: rest → p c = false
  | [], _, _, h => by simp at h
  | a :: t, c, rest, h => by
    rw [List.dropWhile_cons] at h
    by_cases ha : p a = true
    · rw [if_pos ha] at h
      exact dropWhile_head_false h
    · rw [if_neg ha] at h
      have h1 : a = c := (List.cons.inj h).1
      rw [← h1]
      simpa using ha

theorem mem_of_takeWhile {p : Char → Bool} :
    ∀ {l : Chars} {a : Char}, a ∈ l.takeWhile p → a ∈ l
  | [], a, h => by simp at h
  | b :: t, a, h => by
    rw [List.takeWhile_cons] at h
    by_cases hb : p b = true
    · rw [if_pos hb] at h
      rcases List.mem_cons.mp h with h | h
      · subst h
        exact List.mem_cons_self a t
      · exact List.mem_cons_of_mem b (mem_of_takeWhile h)
    · rw [if_neg hb] at h
      simp at h

theorem mem_of_dropLast : ∀ {l : Chars} {a : Char}, a ∈ l.dropLast → a ∈ l
  | [], _, h => by simp at h
  | [b], a, h => by simp [List.dropLast] at h
  | b :: c :: t, a, h => by
    rw [show (b :: c :: t).dropLast = b :: (c :: t).dropLast from rfl] at h
    rcases List.mem_cons.mp h with h | h
    · subst h
      exact List.mem_cons_self a (c :: t)
    · exact List.mem_cons_of_mem b (mem_of_dropLast h)

theorem dropLast_append_single {l : Chars} {a : Char} : (l ++ [a]).dropLast = l := by
  simp

theorem hostPortPath_inv {u : Option Chars} {r : Chars} {g : SshG}
    (h : hostPortPath u r = some g) :
    g.user = u ∧ g.host ≠ [] ∧ '/' ∉ g.host ∧
      g.path.take 1 = ['/'] ∧ noDC g.path = true ∧
      (∀ a, g.archive = some a → a ≠ [] ∧ '/' ∉ a) ∧
      ((g.host = r.takeWhile hostChar ∧
          portPath (r.dropWhile hostChar) = some (g.port, g.path, g.archive)) ∨
        '@' ∉ g.host) := by
  unfold hostPortPath at h
  rcases orElse_eq_some_cases h with h1 | ⟨h1, h2⟩
  · rcases hA : hostA r with _ | hr
    · rw [hA] at h1
      simp at h1
    · rw [hA] at h1
      simp only [Option.some_bind] at h1
      rcases hpp : portPath hr.2 with _ | ppa
      · rw [hpp] at h1
        simp at h1
      · rw [hpp] at h1
        simp only [Option.map_some'] at h1
        obtain rfl := Option.some.inj h1
        obtain ⟨hAe1, hAe2, hAne⟩ := hostA_eq hA
        obtain ⟨_, hs2, _⟩ := hostA_facts hA
        have hpf := portPath_facts hpp
        refine ⟨rfl, hAne, hs2, hpf.1, hpf.2.1, fun a ha => hpf.2.2.2 a ha, Or.inl ⟨hAe1, ?_⟩⟩
        rw [← hAe2]
        exact hpp
  · rcases hB : hostB r with _ | hr
    · rw [hB] at h2
      simp at h2
    · rw [hB] at h2
      simp only [Option.some_bind] at h2
      rcases hpp : portPath hr.2 with _ | ppa
      · rw [hpp] at h2
        simp at h2
      · rw [hpp] at h2
        simp only [Option.map_some'] at h2
        obtain rfl := Option.some.inj h2
        obtain ⟨hBne, hBs, hBat⟩ := hostB_facts hB
        have hpf := portPath_facts hpp
        exact ⟨rfl, hBne, hBs, hpf.1, hpf.2.1, fun a ha => hpf.2.2.2 a ha, Or.inr hBat⟩

theorem sshMatch_inv {s : Chars} {g : SshG} (h : sshMatch s = some g) :
    (∀ u, g.user = some u → u ≠ [] ∧ '@' ∉ u ∧ ':' ∉ u ∧ '/' ∉ u) ∧
      g.host ≠ [] ∧ '/' ∉ g.host ∧
      g.path.take 1 = ['/'] ∧ noDC g.path = true ∧
      (∀ a, g.archive = some a → a ≠ [] ∧ '/' ∉ a) ∧
      (g.user = none → g.host.take 1 = ['@'] ∨ '@' ∉ g.host.dropLast) := by
  unfold sshMatch at h
  by_cases h6 : s.take 6 = ['s', 's', 'h', ':', '/', '/']
  · rw [if_pos h6] at h
    rcases orElse_eq_some_cases h with h1 | ⟨h1, h2⟩
    · rcases htu : takeUser (s.drop 6) with _ | ur
      · rw [htu] at h1
        simp at h1
      · rw [htu] at h1
        simp only [Option.some_bind] at h1
        obtain ⟨hu, hne, hsl, hp1, hdc, harc, _⟩ := hostPortPath_inv h1
        obtain ⟨hune, hallu⟩ := takeUser_chars htu
        obtain ⟨hat, hcol, hslu⟩ := userChar_all_not_mem hallu
        refine ⟨?_, hne, hsl, hp1, hdc, harc, ?_⟩
        · intro u hu2
          have he : ur.1 = u := Option.some.inj (hu.symm.trans hu2)
          rw [← he]
          exact ⟨hune, hat, hcol, hslu⟩
        · intro hnone
          rw [hu] at hnone
          simp at hnone
    · obtain ⟨hu, hne, hsl, hp1, hdc, harc, hdisj⟩ := hostPortPath_inv h2
      refine ⟨?_, hne, hsl, hp1, hdc, harc, ?_⟩
      · intro u hu2
        rw [hu] at hu2
        simp at hu2
      · intro _
        rcases hdisj with ⟨hh, hpp⟩ | hnat
        · rcases htu : takeUser (s.drop 6) with _ | ur
          · -- the user alternative never even matched a user
            rcases hd : (s.drop 6).dropWhile userChar with _ | ⟨c, rest⟩
            · -- the whole remainder is user characters, hence "@"-free
              have hr := List.takeWhile_append_dropWhile (p := userChar) (l := s.drop 6)
              rw [hd, List.append_nil] at hr
              right
              intro hm
              have hm2 := mem_of_dropLast hm
              rw [hh] at hm2
              have hm3 : '@' ∈ s.drop 6 := mem_of_takeWhile hm2
              rw [← hr] at hm3
              have := List.mem_takeWhile_imp hm3
              simp [userChar] at this
            · have hcu := dropWhile_head_false hd
              by_cases hc : c = '@'
              · -- the failure forces an empty user run, so the host starts at "@"
                subst hc
                by_cases hw : (s.drop 6).takeWhile userChar = []
                · have hr := List.takeWhile_append_dropWhile (p := userChar) (l := s.drop 6)
                  rw [hw, hd, List.nil_append] at hr
                  left
                  rw [hh]
                  conv_lhs => rw [← hr]
                  simp [List.takeWhile_cons, hostChar, List.take]
                · exfalso
                  unfold takeUser at htu
                  rw [if_pos ⟨by rw [hd]; rfl, hw⟩] at htu
                  simp at htu
              · -- the first non-user character is ":" or "/", stopping the host too
                have hcf : hostChar c = false := by
                  by_cases hc1 : c = ':'
                  · simp [hostChar, hc1]
                  · by_cases hc2 : c = '/'
                    · simp [hostChar, hc2]
                    · exfalso
                      have hcu2 : userChar c = true := by
                        simp [userChar, hc, hc1, hc2]
                      rw [hcu2] at hcu
                      simp at hcu
                have hr := List.takeWhile_append_dropWhile (p := userChar) (l := s.drop 6)
                rw [hd] at hr
                have hallw : ∀ a ∈ (s.drop 6).takeWhile userChar, hostChar a = true :=
                  fun a ha => userChar_hostChar (List.mem_takeWhile_imp ha)
                have hstop : ((s.drop 6).takeWhile userChar ++ c :: rest).takeWhile hostChar =
                    (s.drop 6).takeWhile userChar ∧
                    ((s.drop 6).takeWhile userChar ++ c :: rest).dropWhile hostChar =
                      c :: rest :=
                  takeWhile_append_stop hallw hcf
                have hkey : (s.drop 6).takeWhile hostChar = (s.drop 6).takeWhile userChar := by
                  conv_lhs => rw [← hr]
                  exact hstop.1
                right
                intro hm
                have hm2 := mem_of_dropLast hm
                rw [hh, hkey] at hm2
                have := List.mem_takeWhile_imp hm2
                simp [userChar] at this
          · -- a user matched but its continuation failed
            rw [htu] at h1
            simp only [Option.some_bind] at h1
            unfold takeUser at htu
            by_cases hcond : ((s.drop 6).dropWhile userChar).take 1 = ['@'] ∧
                (s.drop 6).takeWhile userChar ≠ []
            · rw [if_pos hcond] at htu
              obtain rfl := Option.some.inj htu
              dsimp only at h1
              have hd2 := take1_eq_cons hcond.1
              have hrd : ((s.drop 6).takeWhile userChar ++ ['@']) ++
                  ((s.drop 6).dropWhile userChar).drop 1 = s.drop 6 := by
                rw [List.append_assoc, List.singleton_append, ← hd2]
                exact List.takeWhile_append_dropWhile _ _
              have hallwa : ∀ a ∈ (s.drop 6).takeWhile userChar ++ ['@'], hostChar a = true := by
                intro a ha
                rcases List.mem_append.mp ha with ha | ha
                · exact userChar_hostChar (List.mem_takeWhile_imp ha)
                · simp at ha
                  simp [ha, hostChar]
              have hsplit : (((s.drop 6).takeWhile userChar ++ ['@']) ++
                    ((s.drop 6).dropWhile userChar).drop 1).takeWhile hostChar =
                  ((s.drop 6).takeWhile userChar ++ ['@']) ++
                    (((s.drop 6).dropWhile userChar).drop 1).takeWhile hostChar ∧
                  (((s.drop 6).takeWhile userChar ++ ['@']) ++
                    ((s.drop 6).dropWhile userChar).drop 1).dropWhile hostChar =
                  (((s.drop 6).dropWhile userChar).drop 1).dropWhile hostChar :=
                takeWhile_append_all hallwa
              have hkey1 : (s.drop 6).takeWhile hostChar =
                  ((s.drop 6).takeWhile userChar ++ ['@']) ++
                    (((s.drop 6).dropWhile userChar).drop 1).takeWhile hostChar := by
                conv_lhs => rw [← hrd]
                exact hsplit.1
              have hkey2 : (s.drop 6).dropWhile hostChar =
                  (((s.drop 6).dropWhile userChar).drop 1).dropWhile hostChar := by
                conv_lhs => rw [← hrd]
                exact hsplit.2
              unfold hostPortPath at h1
              have hparts := orElse_eq_none_parts h1
              rcases hA2 : hostA (((s.drop 6).dropWhile userChar).drop 1) with _ | hr2
              · -- no host characters follow the "@": the host ends exactly at "@"
                unfold hostA at hA2
                by_cases hw2 : (((s.drop 6).dropWhile userChar).drop 1).takeWhile hostChar = []
                · right
                  intro hm
                  rw [hh, hkey1, hw2, List.append_nil, dropLast_append_single] at hm
                  have := List.mem_takeWhile_imp hm
                  simp [userChar] at this
                · rw [if_neg hw2] at hA2
                  simp at hA2
              · -- a host alternative existed after the user, so its portPath failed;
                -- but the bare branch ran portPath on the same remainder and succeeded
                exfalso
                have hb1 := hparts.1
                rw [hA2] at hb1
                simp only [Option.some_bind] at hb1
                rcases hpp2 : portPath hr2.2 with _ | ppa2
                · obtain ⟨_, he2, _⟩ := hostA_eq hA2
                  rw [hkey2, ← he2] at hpp
                  rw [hpp2] at hpp
                  exact absurd hpp (by simp)
                · rw [hpp2] at hb1
                  simp at hb1
            · rw [if_neg hcond] at htu
              simp at htu
        · right
          intro hm
          exact hnat (mem_of_dropLast hm)
  · rw [if_neg h6] at h
    simp at h

/-! ## Claim C1 -/

theorem colon_free_take6 {pre tail : Chars} (hc : ':' ∉ pre)
    (h : (pre ++ ':' :: tail).take 6 = ['s', 's', 'h', ':', '/', '/']) :
    pre = ['s', 's', 'h'] ∧ tail.take 2 = ['/', '/'] := by
  rcases pre with _ | ⟨a, _ | ⟨b, _ | ⟨c, _ | ⟨d, pre4⟩⟩⟩⟩
  · simp [List.take] at h
  · simp [List.take] at h
  · simp [List.take] at h
  · simp [List.take] at h
    exact ⟨by rw [h.1, h.2.1, h.2.2.1], h.2.2.2⟩
  · simp [List.take] at h
    exact absurd (by rw [← h.2.2.2.1]; simp : ':' ∈ a :: b :: c :: d :: pre4) hc

theorem colon_free_take7 {pre tail : Chars} (hc : ':' ∉ pre)
    (h : (pre ++ ':' :: tail).take 7 = ['f', 'i', 'l', 'e', ':', '/', '/']) :
    pre = ['f', 'i', 'l', 'e'] ∧ tail.take 2 = ['/', '/'] := by
  rcases pre with _ | ⟨a, _ | ⟨b, _ | ⟨c, _ | ⟨d, _ | ⟨e, pre5⟩⟩⟩⟩⟩
  · simp [List.take] at h
  · simp [List.take] at h
  · simp [List.take] at h
  · simp [List.take] at h
  · simp [List.take] at h
    exact ⟨by rw [h.1, h.2.1, h.2.2.1, h.2.2.2.1], h.2.2.2.2⟩
  · simp [List.take] at h
    exact absurd (by rw [← h.2.2.2.2.1]; simp : ':' ∈ a :: b :: c :: d :: e :: pre5) hc

theorem tail_take_facts {p A : Chars} (hp1 : p.take 1 = ['/']) (hp2 : p.take 2 ≠ ['/', '/'])
    (hA : A = [] ∨ ∃ a, A = ':' :: ':' :: a) :
    (p ++ A).take 1 = ['/'] ∧ (p ++ A).take 2 ≠ ['/', '/'] := by
  have hp := take1_eq_cons hp1
  rcases hdp : p.drop 1 with _ | ⟨e, p2⟩
  · have hpe : p = ['/'] := by rw [hp, hdp]
    rcases hA with rfl | ⟨a, rfl⟩
    · rw [hpe]
      exact ⟨rfl, by simp [List.take]⟩
    · rw [hpe]
      refine ⟨rfl, ?_⟩
      simp [List.take]
  · have hpe : p = '/' :: e :: p2 := by rw [hp, hdp]
    have he : e ≠ '/' := by
      intro he
      apply hp2
      rw [hpe, he]
      rfl
    rw [hpe]
    refine ⟨rfl, ?_⟩
    intro hcon
    simp [List.take] at hcon
    exact he hcon

theorem take6_ne_of_take1 {l : Chars} (h : l.take 1 = ['/']) :
    l.take 6 ≠ ['s', 's', 'h', ':', '/', '/'] := by
  intro hcon
  have h2 := congrArg (List.take 1) hcon
  simp [List.take_take] at h2
  rw [h] at h2
  exact absurd h2 (by decide)

theorem scpPathArch_rebuilt {p A : Chars} {aopt : Option Chars}
    (hp1 : p.take 1 = ['/']) (hp2 : p.take 2 ≠ ['/', '/']) (hdc : noDC p = true)
    (hA : A = [] ∧ aopt = none ∨
      ∃ a, A = ':' :: ':' :: a ∧ aopt = some a ∧ a ≠ [] ∧ '/' ∉ a ∧ p.getLast? ≠ some ':') :
    scpPathArch (p ++ A) = some (p, aopt) := by
  have hAsh : A = [] ∨ ∃ a, A = ':' :: ':' :: a := by
    rcases hA with ⟨h1, _⟩ | ⟨a, h1, _⟩
    · exact Or.inl h1
    · exact Or.inr ⟨a, h1⟩
  obtain ⟨ht1, ht2⟩ := tail_take_facts hp1 hp2 hAsh
  have h6 := take6_ne_of_take1 ht1
  have hlook : scpLookOk (p ++ A) = true := by
    have e1 : ((p ++ A).take 1 == [':']) = false := by
      rw [ht1]
      decide
    have e2 : ((p ++ A).take 2 == ['/', '/']) = false := beq_eq_false_iff_ne.mpr ht2
    have e3 : ((p ++ A).take 6 == ['s', 's', 'h', ':', '/', '/']) = false :=
      beq_eq_false_iff_ne.mpr h6
    unfold scpLookOk
    rw [e1, e2, e3]
    rfl
  have hpne : p ≠ [] := by
    intro h0
    rw [h0] at hp1
    simp at hp1
  unfold scpPathArch
  rw [if_pos hlook]
  rcases hA with ⟨rfl, rfl⟩ | ⟨a, rfl, rfl, hane, hasl, hplast⟩
  · rw [List.append_nil]
    exact pathArch_no_dc hdc hpne
  · exact pathArch_dc hdc hpne hplast hane hasl

theorem scpWithHost_rebuilt {v : Option Chars} {hst tail p : Chars} {aopt : Option Chars}
    (hne : hst ≠ []) (hcolon : ':' ∉ hst) (hslash : '/' ∉ hst)
    (hpa : scpPathArch tail = some (p, aopt)) :
    scpWithHost v (hst ++ ':' :: tail) = some (ScpG.mk v (some hst) p aopt) := by
  have hallh : ∀ a ∈ hst, hostChar a = true := by
    intro a ha
    have h1 : a ≠ ':' := fun he => hcolon (he ▸ ha)
    have h2 : a ≠ '/' := fun he => hslash (he ▸ ha)
    simp [hostChar, h1, h2]
  have hstop : (hst ++ ':' :: tail).takeWhile hostChar = hst ∧
      (hst ++ ':' :: tail).dropWhile hostChar = ':' :: tail :=
    takeWhile_append_stop hallh (by decide)
  have hA : hostA (hst ++ ':' :: tail) = some (hst, ':' :: tail) := by
    unfold hostA
    rw [hstop.1, hstop.2, if_neg hne]
  unfold scpWithHost
  rw [hA]
  simp [Option.orElse, hpa, List.take]

theorem takeUser_append_at {u d : Chars} (hune : u ≠ [])
    (hall : ∀ c ∈ u, userChar c = true) :
    takeUser (u ++ '@' :: d) = some (u, d) := by
  have hstop : (u ++ '@' :: d).takeWhile userChar = u ∧
      (u ++ '@' :: d).dropWhile userChar = '@' :: d :=
    takeWhile_append_stop hall (by decide)
  unfold takeUser
  rw [hstop.1, hstop.2, if_pos ⟨rfl, hune⟩]
  rfl

theorem takeUser_none_no_at {hst tail : Chars} (hat : '@' ∉ hst) (hcol : ':' ∉ hst)
    (hsl : '/' ∉ hst) :
    takeUser (hst ++ ':' :: tail) = none := by
  have hall : ∀ c ∈ hst, userChar c = true := by
    intro c hc
    have h1 : c ≠ '@' := fun he => hat (he ▸ hc)
    have h2 : c ≠ ':' := fun he => hcol (he ▸ hc)
    have h3 : c ≠ '/' := fun he => hsl (he ▸ hc)
    simp [userChar, h1, h2, h3]
  have hstop : (hst ++ ':' :: tail).takeWhile userChar = hst ∧
      (hst ++ ':' :: tail).dropWhile userChar = ':' :: tail :=
    takeWhile_append_stop hall (by decide)
  unfold takeUser
  rw [hstop.2, if_neg]
  intro hcond
  simp [List.take] at hcond

theorem takeUser_none_at_head {tail : Chars} :
    takeUser ('@' :: tail) = none := by
  unfold takeUser
  rw [if_neg]
  intro hcond
  have h2 := hcond.2
  simp [List.takeWhile_cons, userChar] at h2

theorem scpWithHost_colon_head {v : Option Chars} {tail : Chars} :
    scpWithHost v (':' :: tail) = none := by
  have hw : (':' :: tail).takeWhile hostChar = [] := by
    simp [List.takeWhile_cons, hostChar]
  have hb : ¬((':' :: tail).take 1 = ['[']) := by
    simp [List.take]
  have hA : hostA (':' :: tail) = none := by
    unfold hostA
    rw [if_pos hw]
  have hB : hostB (':' :: tail) = none := by
    unfold hostB
    rw [if_neg hb]
  unfold scpWithHost
  rw [hA, hB]
  rfl

theorem archSuffix_shape (arc : Option Chars) :
    archSuffix arc = [] ∨ ∃ a, archSuffix arc = ':' :: ':' :: a := by
  rcases arc with _ | a
  · exact Or.inl rfl
  · exact Or.inr ⟨a, rfl⟩

theorem ssh_render_reparse {v : Option Chars} {hst P : Chars} {arc : Option Chars}
    (hvne : ∀ u, v = some u → u ≠ [] ∧ '@' ∉ u ∧ ':' ∉ u ∧ '/' ∉ u)
    (hinv : v = none → hst.take 1 = ['@'] ∨ '@' ∉ hst.dropLast)
    (hhne : hst ≠ []) (hcol : ':' ∉ hst) (hsl : '/' ∉ hst)
    (hp1 : P.take 1 = ['/']) (hp2 : P.take 2 ≠ ['/', '/']) (hdc : noDC P = true)
    (harc : ∀ a, arc = some a → a ≠ [] ∧ '/' ∉ a ∧ P.getLast? ≠ some ':') :
    parseRaw (userAt v ++ hst ++ ':' :: (P ++ archSuffix arc)) =
      some ⟨"ssh", v, some hst, none, normpathSpecial P, arc⟩ := by
  have hpa : scpPathArch (P ++ archSuffix arc) = some (P, arc) := by
    apply scpPathArch_rebuilt hp1 hp2 hdc
    rcases arc with _ | a
    · exact Or.inl ⟨rfl, rfl⟩
    · exact Or.inr ⟨a, rfl, rfl, (harc a rfl).1, (harc a rfl).2.1, (harc a rfl).2.2⟩
  obtain ⟨ht1, ht2⟩ := tail_take_facts hp1 hp2 (archSuffix_shape arc)
  rcases v with _ | u
  · -- no user was captured
    simp only [userAt, List.nil_append]
    have hssh : sshMatch (hst ++ ':' :: (P ++ archSuffix arc)) = none := by
      unfold sshMatch
      rw [if_neg]
      intro h6
      exact ht2 (colon_free_take6 hcol h6).2
    have hfile : fileMatch (hst ++ ':' :: (P ++ archSuffix arc)) = none := by
      unfold fileMatch
      rw [if_neg]
      intro h7
      exact ht2 (colon_free_take7 hcol h7).2
    have halt2 : scpWithHost none (hst ++ ':' :: (P ++ archSuffix arc)) =
        some (ScpG.mk none (some hst) P arc) := scpWithHost_rebuilt hhne hcol hsl hpa
    have halt1 : ((takeUser (hst ++ ':' :: (P ++ archSuffix arc))).bind
        fun ur => scpWithHost (some ur.1) ur.2) = none := by
      rcases hinv rfl with hath | hat2
      · have hh2 := take1_eq_cons hath
        rw [show hst ++ ':' :: (P ++ archSuffix arc) =
            '@' :: (hst.drop 1 ++ ':' :: (P ++ archSuffix arc)) from by rw [hh2]; rfl]
        rw [takeUser_none_at_head]
        rfl
      · by_cases hat : '@' ∈ hst
        · have hlast2 := List.dropLast_append_getLast hhne
          have hga : hst.getLast hhne = '@' := by
            have hm : '@' ∈ hst.dropLast ++ [hst.getLast hhne] := by
              rw [hlast2]
              exact hat
            rcases List.mem_append.mp hm with hm | hm
            · exact absurd hm hat2
            · simp at hm
              exact hm.symm
          by_cases hd0 : hst.dropLast = []
          · have hh1 : hst = ['@'] := by
              rw [← hlast2, hd0, hga]
              rfl
            rw [show hst ++ ':' :: (P ++ archSuffix arc) =
                '@' :: (':' :: (P ++ archSuffix arc)) from by rw [hh1]; rfl]
            rw [takeUser_none_at_head]
            rfl
          · have hsplit : hst ++ ':' :: (P ++ archSuffix arc) =
                hst.dropLast ++ '@' :: (':' :: (P ++ archSuffix arc)) := by
              conv_lhs => rw [← hlast2]
              rw [hga, List.append_assoc, List.singleton_append]
            have hall : ∀ c ∈ hst.dropLast, userChar c = true := by
              intro c hc
              have hcm := mem_of_dropLast hc
              have h1 : c ≠ '@' := fun he => hat2 (he ▸ hc)
              have h2 : c ≠ ':' := fun he => hcol (he ▸ hcm)
              have h3 : c ≠ '/' := fun he => hsl (he ▸ hcm)
              simp [userChar, h1, h2, h3]
            rw [hsplit, takeUser_append_at hd0 hall]
            simp only [Option.some_bind]
            exact scpWithHost_colon_head
        · rw [takeUser_none_no_at hat hcol hsl]
          rfl
    unfold parseRaw
    rw [hssh, hfile]
    unfold scpMatch
    rw [halt1, halt2]
    rfl
  · -- a user was captured
    obtain ⟨hune, huat, hucol, husl⟩ := hvne u rfl
    have hall : ∀ c ∈ u, userChar c = true := by
      intro c hc
      have h1 : c ≠ '@' := fun he => huat (he ▸ hc)
      have h2 : c ≠ ':' := fun he => hucol (he ▸ hc)
      have h3 : c ≠ '/' := fun he => husl (he ▸ hc)
      simp [userChar, h1, h2, h3]
    simp only [userAt]
    have hsh : (u ++ ['@']) ++ hst ++ ':' :: (P ++ archSuffix arc) =
        u ++ '@' :: (hst ++ ':' :: (P ++ archSuffix arc)) := by
      simp
    have hpreat : '@' ∈ (u ++ ['@']) ++ hst := by
      simp
    have hprecol : ':' ∉ (u ++ ['@']) ++ hst := by
      intro hm
      rcases List.mem_append.mp hm with hm | hm
      · rcases List.mem_append.mp hm with hm | hm
        · exact hucol hm
        · simp at hm
      · exact hcol hm
    have hssh : sshMatch ((u ++ ['@']) ++ hst ++ ':' :: (P ++ archSuffix arc)) = none := by
      unfold sshMatch
      rw [if_neg]
      intro h6
      have h6b : (((u ++ ['@']) ++ hst) ++ ':' :: (P ++ archSuffix arc)).take 6 =
          ['s', 's', 'h', ':', '/', '/'] := by
        simpa using h6
      have h1 := (colon_free_take6 hprecol h6b).1
      rw [h1] at hpreat
      simp at hpreat
    have hfile : fileMatch ((u ++ ['@']) ++ hst ++ ':' :: (P ++ archSuffix arc)) = none := by
      unfold fileMatch
      rw [if_neg]
      intro h7
      have h7b : (((u ++ ['@']) ++ hst) ++ ':' :: (P ++ archSuffix arc)).take 7 =
          ['f', 'i', 'l', 'e', ':', '/', '/'] := by
        simpa using h7
      have h1 := (colon_free_take7 hprecol h7b).1
      rw [h1] at hpreat
      simp at hpreat
    have htu : takeUser ((u ++ ['@']) ++ hst ++ ':' :: (P ++ archSuffix arc)) =
        some (u, hst ++ ':' :: (P ++ archSuffix arc)) := by
      rw [hsh]
      exact takeUser_append_at hune hall
    have hwh := scpWithHost_rebuilt (v := some u) hhne hcol hsl hpa
    unfold parseRaw
    rw [hssh, hfile]
    unfold scpMatch
    rw [htu]
    simp only [Option.some_bind]
    rw [hwh]
    rfl

theorem locStr_ofSsh_noport {g : SshG} (hport : g.port = none) :
    locStr (ofSsh g) =
      userAt g.user ++ g.host ++ ':' :: (normpathSpecial g.path ++ archSuffix g.archive) := by
  rcases g with ⟨gu, gh, gp, gpath, garc⟩
  obtain rfl : gp = none := hport
  rcases gu with _ | u
  · rcases garc with _ | a
    · simp [locStr, ofSsh, userAt, archSuffix, List.append_assoc, List.singleton_append]
    · simp [locStr, ofSsh, userAt, archSuffix, List.append_assoc, List.singleton_append]
  · rcases garc with _ | a
    · simp [locStr, ofSsh, userAt, archSuffix, List.append_assoc, List.singleton_append]
    · simp [locStr, ofSsh, userAt, archSuffix, List.append_assoc, List.singleton_append]

/-- Counterexample to C1 as stated: "ssh://h:2/p" is accepted by the ssh
grammar (host "h", port 2, path "/p"), but __str__ renders it as
"ssh://h:2//p" — the format string inserts a "/" before the already
absolute path — and re-resolving that string yields path "//p", which
normpath keeps (POSIX double-slash rule), not "/p": the round trip changes
the path field. -/
theorem claim_C1_counterexample :
    parseRaw "ssh://h:2/p".data =
      some ⟨"ssh", none, some ['h'], some 2, ['/', 'p'], none⟩ ∧
    locStr ⟨"ssh", none, some ['h'], some 2, ['/', 'p'], none⟩ = "ssh://h:2//p".data ∧
    parseRaw "ssh://h:2//p".data =
      some ⟨"ssh", none, some ['h'], some 2, ['/', '/', 'p'], none⟩ ∧
    (⟨"ssh", none, some ['h'], some 2, ['/', '/', 'p'], none⟩ : RawLoc) ≠
      ⟨"ssh", none, some ['h'], some 2, ['/', 'p'], none⟩ := by
  refine ⟨by decide, by decide, by decide, by decide⟩

/-- C1 amended: the semantic round trip holds for every ssh-grammar match
without a port whose host is colon-free, whose normalized path does not
begin with "//", and whose normalized path does not end in ":" when an
archive is present: rendering with __str__ and re-resolving returns exactly
the same protocol, user, host, port, normalized path and archive (via the
scp alternative of the grammar).  With a port the rendered form
"ssh://…:port//path" doubles the leading slash and the round trip fails
(claim_C1_counterexample). -/
theorem claim_C1_amended {s : Chars} {g : SshG}
    (h : sshMatch s = some g) (hport : g.port = none) (hcolon : ':' ∉ g.host)
    (hq : (normpathSpecial g.path).take 2 ≠ ['/', '/'])
    (hlast : ∀ a, g.archive = some a → (normpathSpecial g.path).getLast? ≠ some ':') :
    parseRaw (locStr (ofSsh g)) = some (ofSsh g) := by
  obtain ⟨huf, hhne, hhsl, hp1, hdc, harc, hinv⟩ := sshMatch_inv h
  have hps := normpathSpecial_abs hp1
  have hdc2 := noDC_normpathSpecial hdc
  have harc2 : ∀ a, g.archive = some a →
      a ≠ [] ∧ '/' ∉ a ∧ (normpathSpecial g.path).getLast? ≠ some ':' :=
    fun a ha => ⟨(harc a ha).1, (harc a ha).2, hlast a ha⟩
  have hrep := ssh_render_reparse (v := g.user) (P := normpathSpecial g.path)
    huf hinv hhne hcolon hhsl hps.1 hq hdc2 harc2
  rw [locStr_ofSsh_noport hport, hrep, normpathSpecial_idem_abs hp1]
  simp [ofSsh, hport]

/-- Witness for amended C1: "ssh://u@h/p::a" matches the ssh grammar with
user "u", host "h", no port, path "/p" and archive "a"; its rendering
"u@h:/p::a" re-resolves to exactly the same location. -/
theorem claim_C1_amended_witness :
    sshMatch "ssh://u@h/p::a".data =
      some ⟨some ['u'], ['h'], none, ['/', 'p'], some ['a']⟩ ∧
    parseRaw (locStr (ofSsh ⟨some ['u'], ['h'], none, ['/', 'p'], some ['a']⟩)) =
      some (ofSsh ⟨some ['u'], ['h'], none, ['/', 'p'], some ['a']⟩) := by
  refine ⟨by decide, ?_⟩
  exact claim_C1_amended (s := "ssh://u@h/p::a".data) (by decide) (by decide) (by decide)
    (by decide) (fun a ha => by decide)

end BackupVM
